import Mathlib

/-!
Fileset storage: `Storage.CompactSpec`, `applyPrefix` and `Reader`.

A shallow embedding of `src/server/pkg/storage/fileset/storage.go` and
`src/server/pkg/storage/fileset/reader.go`.

* Go strings are Lean `String`s; the standard-library helpers the code calls
  (`strings.HasPrefix`, `path.Join`, `path.Clean`, `path.Base`, `strconv.Itoa`,
  `strconv.Atoi`) are written out on the character lists.
* `int64` arithmetic wraps: `wrapInt64` reduces an integer into
  `[-2^63, 2^63)`.
* Methods that mutate their receiver return the result together with the new
  state.
* The collaborators that are not part of these two files (object client, index
  reader, chunk reader, tar reader) are modelled at their interface: the object
  client as a store of named objects, the readers as a history of the calls
  made on them together with a `World` that fixes how they answer.
-/

namespace Fileset

/-! ## Go standard library helpers -/

/-- Signed 64-bit wrap-around: the value of an `int64` computation whose exact
result is `x`. -/
def wrapInt64 (x : Int) : Int := (x + 2 ^ 63) % 2 ^ 64 - 2 ^ 63

/-- The range of `int64`. -/
def inInt64 (x : Int) : Prop := -(2 ^ 63) ≤ x ∧ x < 2 ^ 63

instance (x : Int) : Decidable (inInt64 x) := by unfold inInt64; exact inferInstance

/-- Is `p` a prefix of `s`, on character lists. -/
def hasPrefixChars : List Char → List Char → Bool
  | _, [] => true
  | [], _ :: _ => false
  | c :: s, p :: ps => c == p && hasPrefixChars s ps

/-- Go `strings.HasPrefix(s, prefix)`. -/
def HasPrefix (s pfx : String) : Bool := hasPrefixChars s.data pfx.data

/-- Split a character list at every `/` (as `strings.Split(s, "/")`): the
elements between the separators, empty ones included. -/
def splitSlash : List Char → List (List Char)
  | [] => [[]]
  | c :: cs =>
    if c = '/' then [] :: splitSlash cs
    else
      match splitSlash cs with
      | [] => [[c]]
      | seg :: segs => (c :: seg) :: segs

/-- Join elements with `/`. -/
def joinSlash : List (List Char) → List Char
  | [] => []
  | [seg] => seg
  | seg :: segs => seg ++ '/' :: joinSlash segs

/-- One step of the element loop of Go `path.Clean`: `out` holds the elements
written so far, most recent first. Empty and `.` elements are dropped; `..`
removes the last real element when there is one, is kept when the path is not
rooted and nothing can be removed, and is dropped at the root. -/
def cleanStep (rooted : Bool) (out : List (List Char)) (seg : List Char) : List (List Char) :=
  if seg = [] then out
  else if seg = ['.'] then out
  else if seg = ['.', '.'] then
    match out with
    | [] => if rooted then [] else [seg]
    | top :: below => if top = ['.', '.'] then seg :: out else below
  else seg :: out

/-- Go `path.Clean` on character lists. -/
def cleanChars (p : List Char) : List Char :=
  if p = [] then ['.']
  else
    let rooted := p.head? == some '/'
    let out := (splitSlash p).foldl (cleanStep rooted) []
    let body := joinSlash out.reverse
    let res := if rooted then '/' :: body else body
    if res = [] then ['.'] else res

/-- Go `path.Clean`. -/
def Clean (p : String) : String := String.mk (cleanChars p.data)

/-- Go `path.Join`: the leading empty elements are ignored, the rest is joined
with `/` and cleaned; the result is empty when every element is empty. -/
def pathJoin (elem : List String) : String :=
  match elem.dropWhile (fun e => e.data = []) with
  | [] => ""
  | rest => String.mk (cleanChars (joinSlash (rest.map String.data)))

/-- Remove the trailing slashes of a reversed path. -/
def dropSlashes : List Char → List Char
  | [] => []
  | c :: cs => if c = '/' then dropSlashes cs else c :: cs

/-- The characters before the first `/` of a reversed path, still reversed. -/
def untilSlash : List Char → List Char
  | [] => []
  | c :: cs => if c = '/' then [] else c :: untilSlash cs

/-- Go `path.Base`: the last element of the path, after removing trailing
slashes; `.` for the empty path and `/` for a path of slashes only. -/
def pathBase (p : String) : String :=
  if p.data = [] then "."
  else
    let stripped := dropSlashes p.data.reverse
    let last := (untilSlash stripped).reverse
    if last = [] then "/" else String.mk last

/-- The decimal digit for `d < 10`. -/
def digitChar (d : Nat) : Char := Char.ofNat (48 + d)

/-- The decimal digits of `n`, least significant first, at most `fuel` of them. -/
def digitsRev : Nat → Nat → List Char
  | 0, _ => []
  | fuel + 1, n => if n < 10 then [digitChar n] else digitChar (n % 10) :: digitsRev fuel (n / 10)

/-- Go `strconv.Itoa` for a non-negative `int`. -/
def Itoa (n : Nat) : String := String.mk (digitsRev (n + 1) n).reverse

/-- The value of a decimal digit character. -/
def digitVal (c : Char) : Option Nat :=
  if 48 ≤ c.toNat ∧ c.toNat ≤ 57 then some (c.toNat - 48) else none

/-- Read a run of decimal digits, most significant first. -/
def parseDigits : List Char → Nat → Option Nat
  | [], acc => some acc
  | c :: cs, acc =>
    match digitVal c with
    | none => none
    | some d => parseDigits cs (10 * acc + d)

/-- Errors returned by the code: `io.EOF` (end of stream) and every other
error, told apart by a code. -/
inductive Error where
  | EOF
  | other (code : Nat)
deriving DecidableEq, Repr

deriving instance DecidableEq for Except

/-- Go `strconv.Atoi` on a 64-bit platform: an optional sign followed by
decimal digits; a syntax error for anything else and a range error outside
`int`. -/
def Atoi (s : String) : Except Error Int :=
  let (neg, digits) :=
    match s.data with
    | '-' :: ds => (true, ds)
    | '+' :: ds => (false, ds)
    | ds => (false, ds)
  if digits = [] then .error (.other 1)
  else
    match parseDigits digits 0 with
    | none => .error (.other 1)
    | some n =>
      let v : Int := if neg then -(n : Int) else (n : Int)
      if -(2 ^ 63) ≤ v ∧ v < 2 ^ 63 then .ok v else .error (.other 2)

/-! ## storage.go -/

/-- The constant `prefix`. -/
def pfsPrefix : String := "pfs"

/-- The constant `Diff`. -/
def Diff : String := "diff"

/-- The constant `Compacted`. -/
def Compacted : String := "compacted"

/-- `applyPrefix` (storage.go:204). -/
def applyPrefix (fileSet : String) : String :=
  if HasPrefix fileSet pfsPrefix then fileSet
  else pathJoin [pfsPrefix, fileSet]

/-- `applyPrefixes` (storage.go:211). -/
def applyPrefixes (fileSets : List String) : List String :=
  fileSets.foldl (fun prefixedFileSets fileSet => prefixedFileSets ++ [applyPrefix fileSet]) []

/-! ### Index records (package `index`, as far as the code reads them) -/

/-- `chunk.DataRef`: a reference to a byte range of a chunk. -/
structure DataRef where
  Hash : String
  OffsetBytes : Int
  SizeBytes : Int
deriving DecidableEq, Repr

/-- `index.Tag`: a named sub-range of a file, with its length in bytes. -/
structure Tag where
  Id : String
  SizeBytes : Int
deriving DecidableEq, Repr

/-- `index.DataOp`: the chunk references and the tags of a file. -/
structure DataOp where
  DataRefs : List DataRef
  Tags : List Tag
deriving DecidableEq, Repr

/-- `index.Index`: the size of the content and its `DataOp`. -/
structure Index where
  SizeBytes : Int
  DataOp : DataOp
deriving DecidableEq, Repr

/-- `tar.Header`, with the fields the code sets and two of those it leaves at
their zero value. -/
structure TarHeader where
  Typeflag : Nat
  Name : String
  Size : Int
  Mode : Int
deriving DecidableEq, Repr

/-- `index.Header`: a tar header and the index entry. -/
structure Header where
  Hdr : TarHeader
  Idx : Index
deriving DecidableEq, Repr

/-! ### The object client (package `obj`), at its interface -/

/-- A stored object: its bytes, the top-level index header that
`index.GetTopLevelIndex` decodes from it (none when it cannot be decoded), and
the error met when streaming its bytes, if any. -/
structure Object where
  index : Option Header
  data : List Nat
  readErr : Option Error
deriving DecidableEq, Repr

/-- The object client: the objects by name, the names `Walk` visits under a
path (in the order it visits them), and the names a `Writer` can be opened
for. -/
structure ObjClient where
  objects : String → Option Object
  listing : String → List String
  writable : String → Bool

/-- `index.GetTopLevelIndex(ctx, objC, name)`. -/
def GetTopLevelIndex (objC : ObjClient) (name : String) : Except Error Header :=
  match objC.objects name with
  | none => .error (.other 3)
  | some o =>
    match o.index with
    | none => .error (.other 4)
    | some hdr => .ok hdr

/-- `objC.Writer(ctx, name)`: opening a writer succeeds or fails. -/
def ObjClient.Writer (objC : ObjClient) (name : String) : Except Error Unit :=
  if objC.writable name then .ok () else .error (.other 5)

/-- `objC.Reader(ctx, name, 0, 0)`: the whole object, or an error when there is
none. -/
def ObjClient.Reader (objC : ObjClient) (name : String) : Except Error Object :=
  match objC.objects name with
  | none => .error (.other 3)
  | some o => .ok o

/-- `io.Copy(w, r)` with `w` a writer for `dst` and `r` a reader of the object
`o`: the bytes of `o` become the object `dst`, unless streaming them fails. -/
def ObjClient.Copy (objC : ObjClient) (dst : String) (o : Object) : Option Error × ObjClient :=
  match o.readErr with
  | some e => (some e, objC)
  | none => (none, { objC with objects := fun k => if k = dst then some o else objC.objects k })

/-- `objC.Walk(ctx, path, visit)` on the names it lists: `visit` is called on
each name in turn and the first error stops the walk. -/
def walkNames {σ : Type} (visit : σ → String → Option Error × σ) :
    List String → σ → Option Error × σ
  | [], st => (none, st)
  | name :: rest, st =>
    match visit st name with
    | (some e, st1) => (some e, st1)
    | (none, st1) => walkNames visit rest st1

/-! ### `Storage` and `CompactSpec` -/

/-- `Storage`, its configuration fields (the object client is passed along
explicitly, as it changes). -/
structure Storage where
  memThreshold : Int
  shardThreshold : Int
  levelZeroSize : Int
  levelSizeBase : Int
deriving DecidableEq, Repr

/-- `CompactSpec` (storage.go:125). -/
structure CompactSpec where
  Output : String
  Input : List String
deriving DecidableEq, Repr

/-- The threshold of storage.go:176,
`s.levelZeroSize*int64(math.Pow(float64(s.levelSizeBase), float64(level)))`.
The floating-point power converted back to `int64` is the parameter `pow`
(`pow b l` stands for `int64(math.Pow(float64(b), float64(l)))`); the product
is an `int64` product. -/
def levelThreshold (pow : Int → Nat → Int) (s : Storage) (level : Nat) : Int :=
  wrapInt64 (s.levelZeroSize * pow s.levelSizeBase level)

/-- The power as `math.Pow` computes it where floating point is exact: the
integer power. -/
def exactPow (b : Int) (l : Nat) : Int := b ^ l

/-- The variables the `Walk` callback of `CompactSpec` closes over. `level`
starts at 0 and grows by one for each name visited, so it stays far below the
range of `int`. -/
structure WalkState where
  objC : ObjClient
  level : Nat
  size : Int
  spec : CompactSpec

/-- The block of the `Walk` callback guarded by `nextLevel == level`
(storage.go:148-173): the level's size is added to the running total; the level
becomes an input while no output is fixed and is copied to
`<fileSet>/compacted/<level>` otherwise. -/
def handleLevel (fileSet : String) (st : WalkState) (name : String) : Option Error × WalkState :=
  match GetTopLevelIndex st.objC name with
  | .error e => (some e, st)
  | .ok hdr =>
    let st1 : WalkState := { st with size := wrapInt64 (st.size + hdr.Idx.SizeBytes) }
    if st1.spec.Output = "" then
      (none, { st1 with spec := { st1.spec with Input := st1.spec.Input ++ [name] } })
    else
      match st1.objC.Writer (pathJoin [fileSet, Compacted, Itoa st1.level]) with
      | .error e => (some e, st1)
      | .ok _ =>
        match st1.objC.Reader name with
        | .error e => (some e, st1)
        | .ok r =>
          match st1.objC.Copy (pathJoin [fileSet, Compacted, Itoa st1.level]) r with
          | (some e, objC1) => (some e, { st1 with objC := objC1 })
          | (none, objC1) => (none, { st1 with objC := objC1 })

/-- The size test of the `Walk` callback (storage.go:176-178): while no output
is fixed, a running total below the threshold of the current level fixes the
output to that level. -/
def fixOutput (pow : Int → Nat → Int) (s : Storage) (fileSet : String) (st : WalkState) :
    WalkState :=
  if st.spec.Output = "" ∧ st.size < levelThreshold pow s st.level then
    { st with spec := { st.spec with Output := pathJoin [fileSet, Compacted, Itoa st.level] } }
  else st

/-- The `Walk` callback of `CompactSpec` (storage.go:142-181), called on one
object name. `fileSet` is the already prefixed name. -/
def compactVisit (pow : Int → Nat → Int) (s : Storage) (fileSet : String)
    (st : WalkState) (name : String) : Option Error × WalkState :=
  match Atoi (pathBase name) with
  | .error e => (some e, st)
  | .ok nextLevel =>
    match (if nextLevel = (st.level : Int) then handleLevel fileSet st name else (none, st)) with
    | (some e, st1) => (some e, st1)
    | (none, st1) =>
      let st2 := fixOutput pow s fileSet st1
      (none, { st2 with level := st2.level + 1 })

/-- `Storage.CompactSpec` (storage.go:130): the result and the object client
after the call. -/
def Storage.CompactSpec (pow : Int → Nat → Int) (s : Storage) (objC : ObjClient)
    (fileSet compactedFileSet : String) : Except Error CompactSpec × ObjClient :=
  let fileSet := applyPrefix fileSet
  let compactedFileSet := applyPrefix compactedFileSet
  match GetTopLevelIndex objC (pathJoin [fileSet, Diff]) with
  | .error e => (.error e, objC)
  | .ok hdr =>
    let st0 : WalkState :=
      { objC := objC, level := 0, size := hdr.Idx.SizeBytes,
        spec := { Output := "", Input := [pathJoin [fileSet, Diff]] } }
    match walkNames (compactVisit pow s fileSet) (objC.listing (pathJoin [compactedFileSet, Compacted])) st0 with
    | (some e, st) => (.error e, st.objC)
    | (none, st) => (.ok st.spec, st.objC)

/-! ### Concrete stores used to evaluate the code -/

/-- An index header that only carries a size. -/
def sizeHeader (n : Int) : Header :=
  { Hdr := { Typeflag := 0, Name := "", Size := 0, Mode := 0 },
    Idx := { SizeBytes := n, DataOp := { DataRefs := [], Tags := [] } } }

/-- An object with a top-level index of size `n` and the bytes `data`. -/
def sizedObject (n : Int) (data : List Nat) : Object :=
  { index := some (sizeHeader n), data := data, readErr := none }

/-- A store given by a list of named objects: `Walk` visits, in the order of
the list, the names that start with the path followed by `/`, and every name is
writable. -/
def storeOf (objs : List (String × Object)) : ObjClient :=
  { objects := fun k => (objs.find? (fun p => p.1 = k)).map Prod.snd
    listing := fun dir => (objs.map Prod.fst).filter (fun k => HasPrefix k (dir ++ "/"))
    writable := fun _ => true }

/-! ### Contiguous levels and the exact size test -/

/-- The size `index.GetTopLevelIndex` reports for `name`, when it succeeds. -/
def topLevelSize (objC : ObjClient) (name : String) : Except Error Int :=
  (GetTopLevelIndex objC name).map (fun hdr => hdr.Idx.SizeBytes)

/-- The names visited are the levels `k, k+1, ...` in this order, without a
gap, and their top-level indexes report the sizes `sizes`. -/
def levelsFrom (objC : ObjClient) : Nat → List String → List Int → Prop
  | _, [], [] => True
  | k, name :: names, sz :: sizes =>
    Atoi (pathBase name) = .ok (k : Int) ∧ topLevelSize objC name = .ok sz ∧
      levelsFrom objC (k + 1) names sizes
  | _, _, _ => False

/-- The running total the size test sees at level `L`: the size of the diff
plus the sizes of the levels `0..L`, level `L` included. -/
def runningTotal (diffSize : Int) (sizes : List Int) (L : Nat) : Int :=
  diffSize + (sizes.take (L + 1)).sum

/-- The exact threshold `levelZeroSize * levelSizeBase^L`. -/
def exactThreshold (s : Storage) (L : Nat) : Int :=
  s.levelZeroSize * s.levelSizeBase ^ L

/-- The size test at level `L`, in exact arithmetic. -/
def fits (s : Storage) (diffSize : Int) (sizes : List Int) (L : Nat) : Prop :=
  runningTotal diffSize sizes L < exactThreshold s L

/-- No overflow up to level `n`: the floating-point power is exact, and the
threshold and the running total stay inside `int64`. -/
def NoOverflow (pow : Int → Nat → Int) (s : Storage) (diffSize : Int) (sizes : List Int) : Prop :=
  ∀ L, L < sizes.length →
    pow s.levelSizeBase L = s.levelSizeBase ^ L ∧ inInt64 (exactThreshold s L) ∧
      inInt64 (runningTotal diffSize sizes L)

/-- The size test of the `Walk` callback on the sizes alone: the first level,
counted from `k`, at which the `int64` running total is below the threshold
`thr`. -/
def firstFit (thr : Nat → Int) : Nat → Int → List Int → Option Nat
  | _, _, [] => none
  | k, acc, sz :: rest =>
    if wrapInt64 (acc + sz) < thr k then some k
    else firstFit thr (k + 1) (wrapInt64 (acc + sz)) rest

/-- The state the walk of `CompactSpec` starts from. -/
def startState (objC : ObjClient) (fileSet : String) (diffSize : Int) : WalkState :=
  { objC := objC, level := 0, size := diffSize,
    spec := { Output := "", Input := [pathJoin [fileSet, Diff]] } }

/-- The size test as it would be without the level itself: the size of the
diff plus the sizes of the levels below `L` only. -/
def fitsBelow (s : Storage) (diffSize : Int) (sizes : List Int) (L : Nat) : Prop :=
  diffSize + (sizes.take L).sum < exactThreshold s L

instance (s : Storage) (d : Int) (sizes : List Int) (L : Nat) : Decidable (fits s d sizes L) := by
  unfold fits; exact inferInstance

instance (s : Storage) (d : Int) (sizes : List Int) (L : Nat) :
    Decidable (fitsBelow s d sizes L) := by
  unfold fitsBelow; exact inferInstance

instance (pow : Int → Nat → Int) (s : Storage) (d : Int) (sizes : List Int) :
    Decidable (NoOverflow pow s d sizes) := by
  unfold NoOverflow; exact inferInstance

/-- Deciding `levelsFrom` on a concrete store. -/
def decLevelsFrom (objC : ObjClient) :
    (k : Nat) → (names : List String) → (sizes : List Int) → Decidable (levelsFrom objC k names sizes)
  | _, [], [] => isTrue trivial
  | _, [], _ :: _ => isFalse (fun h => h)
  | _, _ :: _, [] => isFalse (fun h => h)
  | k, name :: names, sz :: sizes =>
    match decLevelsFrom objC (k + 1) names sizes with
    | isTrue h3 =>
      if h1 : Atoi (pathBase name) = .ok (k : Int) then
        if h2 : topLevelSize objC name = .ok sz then isTrue ⟨h1, h2, h3⟩
        else isFalse (fun h => h2 h.2.1)
      else isFalse (fun h => h1 h.1)
    | isFalse h3 => isFalse (fun h => h3 h.2.2)

instance (objC : ObjClient) (k : Nat) (names : List String) (sizes : List Int) :
    Decidable (levelsFrom objC k names sizes) := decLevelsFrom objC k names sizes

/-- A configuration with level zero of 10 bytes and base 10. -/
def smallStorage : Storage :=
  { memThreshold := 1024, shardThreshold := 1024, levelZeroSize := 10, levelSizeBase := 10 }

/-- A fileset `a` with a diff of 5 bytes and the levels 0, 1 and 2 of 10 bytes
each. -/
def threeLevelStore : ObjClient :=
  storeOf [("pfs/a/diff", sizedObject 5 [1]), ("pfs/a/compacted/0", sizedObject 10 [2]),
    ("pfs/a/compacted/1", sizedObject 10 [3]), ("pfs/a/compacted/2", sizedObject 10 [4])]

/-- A fileset `b` with a diff of 5 bytes, compacted against the namespace `a`
that holds level 1 only (level 0 is absent). -/
def gapStore : ObjClient :=
  storeOf [("pfs/b/diff", sizedObject 5 [1]), ("pfs/a/compacted/1", sizedObject 10 [3])]

/-! ## reader.go -/

/-- Byte-wise comparison of Go strings (`a < b`), on character lists. -/
def charsLess : List Char → List Char → Bool
  | _, [] => false
  | [], _ :: _ => true
  | a :: as, b :: bs =>
    decide (a.toNat < b.toNat) || (decide (a.toNat = b.toNat) && charsLess as bs)

/-- Modelled from the spec: `index.BeforeBound` of package `index`, which is
not among the sources. The bound is optional; without a bound every identifier
is before it, and with a bound the identifiers that sort strictly before it
are. -/
def BeforeBound (str : String) (strBound : List String) : Bool :=
  match strBound with
  | [] => true
  | bound :: _ => charsLess str.data bound.data

/-- `chunk.Copy`: the handle `ReadCopy` returns for a byte range, kept as the
chunk references it names. -/
structure Copy where
  chunkRefs : List DataRef
deriving DecidableEq, Repr

/-- The calls the `Reader` makes on its collaborators: the index reader `ir`,
the chunk reader `cr` and the tar reader `tr`. -/
inductive Call where
  | irNext
  | irClose
  | crNextRange (dataRefs : List DataRef)
  | crReadCopy (n : Int)
  | crClose
  | tarNewReader
  | trNext
  | trSkip (n : Int)
deriving DecidableEq, Repr

/-- How the collaborators answer: each answer is a function of the calls made
on them before. `NextRange` and `tar.NewReader` return nothing that can
fail. -/
structure World where
  irNext : List Call → Except Error Header
  irClose : List Call → Option Error
  crReadCopy : List Call → Int → Except Error Copy
  crClose : List Call → Option Error
  trNext : List Call → Option Error
  trSkip : List Call → Int → Option Error

/-- `Reader` (reader.go:14). `calls` is the history of the calls made on `ir`,
`cr` and `tr`, which stands for their state; `tr` tells whether `r.tr` is set
(not nil); `hdr` and `peekHdr` are none for nil. -/
structure Reader where
  calls : List Call
  tr : Bool
  hdr : Option Header
  peekHdr : Option Header
  tags : List Tag
deriving DecidableEq, Repr

/-- How a call that returns no value ends: with a Go error, or with a run-time
panic. -/
inductive Failure where
  | error (e : Error)
  | panic
deriving DecidableEq, Repr

/-- `indexToContentHeader` (reader.go:85): the tar header is replaced by one
that carries the name and the size of the content only. -/
def indexToContentHeader (idx : Header) : Header :=
  { idx with Hdr := { Typeflag := 0, Name := idx.Hdr.Name, Size := idx.Idx.SizeBytes, Mode := 0 } }

/-- `Reader.next` (reader.go:54). -/
def Reader.next (w : World) (r : Reader) : Except Error Header × Reader :=
  match w.irNext r.calls with
  | .error e => (.error e, { r with calls := r.calls ++ [Call.irNext] })
  | .ok hdr => (.ok (indexToContentHeader hdr), { r with calls := r.calls ++ [Call.irNext] })

/-- `Reader.Next` (reader.go:36). The slice `Tags[1:]` of an empty tag list is
out of range and panics. -/
def Reader.Next (w : World) (r : Reader) : Except Failure Header × Reader :=
  let got : Except Error Header × Reader :=
    match r.peekHdr with
    | some hdr => (.ok hdr, { r with peekHdr := none })
    | none => r.next w
  match got with
  | (.error e, r1) => (.error (.error e), r1)
  | (.ok hdr, r1) =>
    let r2 : Reader :=
      { r1 with
        hdr := some hdr
        calls := r1.calls ++ [Call.crNextRange hdr.Idx.DataOp.DataRefs]
        tr := false }
    match hdr.Idx.DataOp.Tags with
    | [] => (.error .panic, r2)
    | _ :: tags => (.ok hdr, { r2 with tags := tags })

/-- `Reader.Peek` (reader.go:65). -/
def Reader.Peek (w : World) (r : Reader) : Except Error Header × Reader :=
  match r.peekHdr with
  | some hdr => (.ok hdr, r)
  | none =>
    match r.next w with
    | (.error e, r1) => (.error e, r1)
    | (.ok hdr, r1) => (.ok hdr, { r1 with peekHdr := some hdr })

/-- `Reader.PeekTag` (reader.go:78). -/
def Reader.PeekTag (r : Reader) : Except Error Tag :=
  match r.tags with
  | [] => .error .EOF
  | tag :: _ => .ok tag

/-- `Reader.setupReader` (reader.go:101): `r.tr` is set before the tar header
is read, and stays set when reading it fails. -/
def Reader.setupReader (w : World) (r : Reader) : Option Error × Reader :=
  if r.tr = false then
    let r1 : Reader := { r with tr := true, calls := r.calls ++ [Call.tarNewReader] }
    (w.trNext r1.calls, { r1 with calls := r1.calls ++ [Call.trNext] })
  else (none, r)

/-- `copyTags` (reader.go:116). -/
structure copyTags where
  hdr : Option Header
  content : Copy
  tags : List Tag
deriving DecidableEq, Repr

/-- The loop of `readCopyTags` (reader.go:130-137) over the tags not yet
visited: `i` is the index of the next tag, `idx` and `numBytes` the variables
of the same names. -/
def copyLoop (tagBound : List String) : List Tag → Nat → Nat → Int → Nat × Int
  | [], _, idx, numBytes => (idx, numBytes)
  | tag :: rest, i, idx, numBytes =>
    if !BeforeBound tag.Id tagBound then (idx, numBytes)
    else copyLoop tagBound rest (i + 1) (i + 1) (wrapInt64 (numBytes + tag.SizeBytes))

/-- `Reader.readCopyTags` (reader.go:122). -/
def Reader.readCopyTags (w : World) (r : Reader) (tagBound : List String) :
    Except Error copyTags × Reader :=
  match r.setupReader w with
  | (some e, r1) => (.error e, r1)
  | (none, r1) =>
    let loop := copyLoop tagBound r1.tags 0 0 0
    let idx := loop.1
    let numBytes := loop.2
    let r2 : Reader := { r1 with calls := r1.calls ++ [Call.crReadCopy numBytes] }
    match w.crReadCopy r1.calls numBytes with
    | .error e => (.error e, r2)
    | .ok content =>
      let c : copyTags := { hdr := r2.hdr, content := content, tags := r2.tags.take idx }
      let r3 : Reader := { r2 with tags := r2.tags.drop idx }
      match w.trSkip r3.calls numBytes with
      | some e => (.error e, { r3 with calls := r3.calls ++ [Call.trSkip numBytes] })
      | none => (.ok c, { r3 with calls := r3.calls ++ [Call.trSkip numBytes] })

/-- `Reader.Close` (reader.go:155). -/
def Reader.Close (w : World) (r : Reader) : Option Error × Reader :=
  match w.crClose r.calls with
  | some e => (some e, { r with calls := r.calls ++ [Call.crClose] })
  | none =>
    (w.irClose (r.calls ++ [Call.crClose]),
      { r with calls := r.calls ++ [Call.crClose] ++ [Call.irClose] })

/-- The state after `n` calls of `Peek` in a row. -/
def peekTimes (w : World) : Nat → Reader → Reader
  | 0, r => r
  | n + 1, r => peekTimes w n (r.Peek w).2

/-- The tag identifiers are in non-decreasing order. -/
def TagsOrdered (tags : List Tag) : Prop :=
  tags.Pairwise (fun a b => charsLess b.Id.data a.Id.data = false)

instance (tags : List Tag) : Decidable (TagsOrdered tags) := by
  unfold TagsOrdered; exact inferInstance

/-- The sum of the sizes of a list of tags. -/
def sumSizes (tags : List Tag) : Int := (tags.map (fun t => t.SizeBytes)).sum

/-! ### Concrete readers used to evaluate the code -/

/-- A header for the file `name` with the given tags. -/
def fileHeader (name : String) (tags : List Tag) : Header :=
  { Hdr := { Typeflag := 48, Name := name, Size := 0, Mode := 420 },
    Idx := { SizeBytes := sumSizes tags,
             DataOp := { DataRefs := [{ Hash := name, OffsetBytes := 0, SizeBytes := sumSizes tags }],
                         Tags := tags } } }

/-- A world whose index holds the headers `hdrs` and then ends, and whose
other calls succeed, except those named by the flags. -/
def listWorld (hdrs : List Header) (crCloseFails skipFails : Bool) : World :=
  { irNext := fun calls =>
      match hdrs.get? (calls.count Call.irNext) with
      | some hdr => .ok hdr
      | none => .error .EOF
    irClose := fun _ => none
    crReadCopy := fun _ _ => .ok { chunkRefs := [] }
    crClose := fun _ => if crCloseFails then some (.other 7) else none
    trNext := fun _ => none
    trSkip := fun _ _ => if skipFails then some (.other 8) else none }

/-- A reader just created by `newReader`. -/
def newReader : Reader :=
  { calls := [], tr := false, hdr := none, peekHdr := none, tags := [] }

/-- The index record of the file `/f`, with the reserved tag and the tags
`t1`, `t2` of 3 bytes each. -/
def fileF : Header := fileHeader "/f" [⟨"", 0⟩, ⟨"t1", 3⟩, ⟨"t2", 3⟩]

/-- Two files: `/f`, and `/g` with the reserved tag only. -/
def twoFiles : List Header := [fileF, fileHeader "/g" [⟨"", 0⟩]]

/-- A reader in the middle of the file `/f`, with the tags `t1`, `t2`, `t3`
of 3 bytes each still to read. -/
def orderedReader : Reader :=
  { calls := [Call.irNext, Call.crNextRange []], tr := false,
    hdr := some (fileHeader "/f" [⟨"", 0⟩, ⟨"t1", 3⟩, ⟨"t2", 3⟩, ⟨"t3", 3⟩]), peekHdr := none,
    tags := [⟨"t1", 3⟩, ⟨"t2", 3⟩, ⟨"t3", 3⟩] }

/-- A reader whose remaining tags are `b` and then `a`, out of order. -/
def unorderedReader : Reader :=
  { calls := [Call.irNext, Call.crNextRange []], tr := false,
    hdr := some (fileHeader "/f" [⟨"", 0⟩, ⟨"b", 1⟩, ⟨"a", 1⟩]), peekHdr := none,
    tags := [⟨"b", 1⟩, ⟨"a", 1⟩] }

/-- A world over an empty index in which `ReadCopy` fails. -/
def failingCopyWorld : World :=
  { listWorld [] false false with crReadCopy := fun _ _ => .error (.other 9) }

/-! ### Well-formed indexes and the states a reader can reach -/

/-- Every header the index delivers carries at least one tag (the reserved
header tag comes first). -/
def WellTagged (w : World) : Prop :=
  ∀ calls hdr, w.irNext calls = .ok hdr → hdr.Idx.DataOp.Tags ≠ []

/-- The states of a reader: the one `newReader` creates, and those its methods
lead to. -/
inductive Reachable (w : World) : Reader → Prop where
  | new : Reachable w newReader
  | Next (r : Reader) : Reachable w r → Reachable w (r.Next w).2
  | Peek (r : Reader) : Reachable w r → Reachable w (r.Peek w).2
  | readCopyTags (r : Reader) (tagBound : List String) :
      Reachable w r → Reachable w (r.readCopyTags w tagBound).2
  | Close (r : Reader) : Reachable w r → Reachable w (r.Close w).2

/-- A configuration with level zero of `2^20` bytes (one megabyte) and base 10,
the sizes `NewStorage` starts from. -/
def megaStorage : Storage :=
  { memThreshold := 2 ^ 30, shardThreshold := 2 ^ 30, levelZeroSize := 2 ^ 20,
    levelSizeBase := 10 }

/-- A world whose index delivers one header without any tag. -/
def untaggedWorld : World := listWorld [fileHeader "/e" []] false false

/-- The reader `orderedReader` after `readCopyTags` up to the bound `t3`. -/
def afterCopy : Reader :=
  (Reader.readCopyTags (listWorld twoFiles false false) orderedReader ["t3"]).2

/-! ### Further concrete inputs -/

/-- The index record of a file whose tags `a` and `b` have the sizes
`2^63 - 1` and `1`. -/
def hugeTagsHeader : Header :=
  { Hdr := { Typeflag := 48, Name := "/h", Size := 0, Mode := 420 },
    Idx := { SizeBytes := 0,
             DataOp := { DataRefs := [],
                         Tags := [⟨"", 0⟩, ⟨"a", 9223372036854775807⟩, ⟨"b", 1⟩] } } }

/-- A world whose index holds the file of `hugeTagsHeader` only. -/
def hugeTagsWorld : World := listWorld [hugeTagsHeader] false false

/-- The index record of a file with the tags `a`, `c`, `b`, in this order. -/
def mixedHeader : Header := fileHeader "/m" [⟨"", 0⟩, ⟨"a", 2⟩, ⟨"c", 3⟩, ⟨"b", 4⟩]

/-- A world whose index holds the file of `mixedHeader` only. -/
def mixedWorld : World := listWorld [mixedHeader] false false

/-- A world over an empty index in which closing the index reader fails. -/
def failingIndexCloseWorld : World :=
  { listWorld [] false false with irClose := fun _ => some (.other 6) }

/-! ## Lemmas: paths -/

theorem cleanChars_ne_nil (p : List Char) : cleanChars p ≠ [] := by
  unfold cleanChars
  dsimp only
  split_ifs with h1 h2 h3 h4 <;> simp_all

theorem pathJoin_ne_empty (elem : List String)
    (h : elem.dropWhile (fun e => decide (e.data = [])) ≠ []) : pathJoin elem ≠ "" := by
  unfold pathJoin
  split
  · rename_i heq
    exact absurd heq h
  · intro hc
    have := congrArg String.data hc
    exact cleanChars_ne_nil _ this

theorem levelPath_ne_empty (fileSet : String) (l : Nat) :
    pathJoin [fileSet, Compacted, Itoa l] ≠ "" := by
  apply pathJoin_ne_empty
  by_cases h : fileSet.data = []
  · simp [List.dropWhile, h, Compacted]
  · simp [List.dropWhile, h]

/-! ## Lemmas: the `Walk` callback -/

theorem topLevelSize_ok {objC : ObjClient} {name : String} {sz : Int}
    (h : topLevelSize objC name = .ok sz) :
    ∃ hdr, GetTopLevelIndex objC name = .ok hdr ∧ hdr.Idx.SizeBytes = sz := by
  unfold topLevelSize at h
  cases hg : GetTopLevelIndex objC name with
  | error e => rw [hg] at h; simp [Except.map] at h
  | ok hdr =>
    rw [hg] at h
    simp only [Except.map, Except.ok.injEq] at h
    exact ⟨hdr, rfl, h⟩

theorem fixOutput_fixed (pow : Int → Nat → Int) (s : Storage) (fileSet : String)
    (st : WalkState) (hout : st.spec.Output ≠ "") : fixOutput pow s fileSet st = st := by
  unfold fixOutput; simp [hout]

/-- The callback on the expected level while no output is fixed: the level
becomes an input, and the output is fixed when the size test passes. -/
theorem compactVisit_unfixed (pow : Int → Nat → Int) (s : Storage) (fileSet : String)
    (st : WalkState) (name : String) (hdr : Header)
    (hout : st.spec.Output = "")
    (hlev : Atoi (pathBase name) = .ok (st.level : Int))
    (hidx : GetTopLevelIndex st.objC name = .ok hdr) :
    compactVisit pow s fileSet st name =
      (none,
        { objC := st.objC, level := st.level + 1,
          size := wrapInt64 (st.size + hdr.Idx.SizeBytes),
          spec :=
            { Output :=
                if wrapInt64 (st.size + hdr.Idx.SizeBytes) < levelThreshold pow s st.level then
                  pathJoin [fileSet, Compacted, Itoa st.level]
                else "",
              Input := st.spec.Input ++ [name] } }) := by
  simp only [compactVisit, handleLevel, fixOutput, hlev, hidx, hout, if_true, true_and]
  split_ifs <;> rfl

theorem handleLevel_fixed (fileSet : String) (st st1 : WalkState) (name : String)
    (hout : st.spec.Output ≠ "") (h : handleLevel fileSet st name = (none, st1)) :
    st1.spec = st.spec := by
  unfold handleLevel at h
  cases hG : GetTopLevelIndex st.objC name with
  | error e => rw [hG] at h; simp at h
  | ok hdr =>
    rw [hG] at h
    dsimp only at h
    rw [if_neg hout] at h
    cases hW : st.objC.Writer (pathJoin [fileSet, Compacted, Itoa st.level]) with
    | error e => rw [hW] at h; simp at h
    | ok u =>
      rw [hW] at h
      dsimp only at h
      cases hR : st.objC.Reader name with
      | error e => rw [hR] at h; simp at h
      | ok r =>
        rw [hR] at h
        dsimp only at h
        cases hC : st.objC.Copy (pathJoin [fileSet, Compacted, Itoa st.level]) r with
        | mk eo objC1 =>
          rw [hC] at h
          cases eo with
          | some e => simp at h
          | none =>
            simp only [Prod.mk.injEq, true_and] at h
            rw [← h]

/-- Once the output is fixed the callback never changes the spec. -/
theorem compactVisit_fixed (pow : Int → Nat → Int) (s : Storage) (fileSet : String)
    (st st1 : WalkState) (name : String) (hout : st.spec.Output ≠ "")
    (h : compactVisit pow s fileSet st name = (none, st1)) : st1.spec = st.spec := by
  unfold compactVisit at h
  cases hA : Atoi (pathBase name) with
  | error e => rw [hA] at h; simp at h
  | ok nextLevel =>
    rw [hA] at h
    dsimp only at h
    cases hH : (if nextLevel = (st.level : Int) then handleLevel fileSet st name
        else (none, st)) with
    | mk eo st2 =>
      rw [hH] at h
      cases eo with
      | some e => simp at h
      | none =>
        have hspec : st2.spec = st.spec := by
          split_ifs at hH with hl
          · exact handleLevel_fixed fileSet st st2 name hout hH
          · simp only [Prod.mk.injEq, true_and] at hH
            rw [← hH]
        have hout2 : st2.spec.Output ≠ "" := by rw [hspec]; exact hout
        simp only [fixOutput_fixed pow s fileSet st2 hout2, Prod.mk.injEq, true_and] at h
        rw [← h]
        exact hspec

theorem walk_fixed (pow : Int → Nat → Int) (s : Storage) (fileSet : String) :
    ∀ (names : List String) (st st1 : WalkState), st.spec.Output ≠ "" →
      walkNames (compactVisit pow s fileSet) names st = (none, st1) → st1.spec = st.spec := by
  intro names
  induction names with
  | nil =>
    intro st st1 _ h
    simp only [walkNames, Prod.mk.injEq, true_and] at h
    rw [h]
  | cons name rest ih =>
    intro st st1 hout h
    simp only [walkNames] at h
    split at h
    · simp at h
    · rename_i st2 heq
      have h2 := compactVisit_fixed pow s fileSet st st2 name hout heq
      have h3 := ih st2 st1 (by rw [h2]; exact hout) h
      rw [h3, h2]

theorem firstFit_bounds (thr : Nat → Int) :
    ∀ (sizes : List Int) (k : Nat) (acc : Int) (L : Nat),
      firstFit thr k acc sizes = some L → k ≤ L ∧ L < k + sizes.length := by
  intro sizes
  induction sizes with
  | nil => intro k acc L h; simp [firstFit] at h
  | cons sz rest ih =>
    intro k acc L h
    simp only [firstFit] at h
    split_ifs at h with hlt
    · simp only [Option.some.injEq] at h
      subst h
      simp
    · have := ih (k + 1) _ L h
      simp only [List.length_cons]
      omega

/-- A successful walk over contiguous levels, started before any output is
fixed: the output is the first level that passes the size test and the inputs
are the levels up to it. -/
theorem walk_unfixed (pow : Int → Nat → Int) (s : Storage) (fileSet : String) :
    ∀ (names : List String) (sizes : List Int) (k : Nat) (st st1 : WalkState),
      levelsFrom st.objC k names sizes → st.level = k → st.spec.Output = "" →
      walkNames (compactVisit pow s fileSet) names st = (none, st1) →
      (∀ L, firstFit (levelThreshold pow s) k st.size sizes = some L →
          st1.spec.Output = pathJoin [fileSet, Compacted, Itoa L] ∧
            st1.spec.Input = st.spec.Input ++ names.take (L + 1 - k)) ∧
        (firstFit (levelThreshold pow s) k st.size sizes = none →
          st1.spec.Output = "" ∧ st1.spec.Input = st.spec.Input ++ names) := by
  intro names
  induction names with
  | nil =>
    intro sizes k st st1 hl _ hout h
    cases sizes with
    | nil =>
      simp only [walkNames, Prod.mk.injEq, true_and] at h
      subst h
      simp [firstFit, hout]
    | cons sz rest => simp [levelsFrom] at hl
  | cons name rest ih =>
    intro sizes k st st1 hl hk hout h
    cases sizes with
    | nil => simp [levelsFrom] at hl
    | cons sz szs =>
      obtain ⟨hat, hsz, hrest⟩ := hl
      obtain ⟨hdr, hidx, hsize⟩ := topLevelSize_ok hsz
      have hv := compactVisit_unfixed pow s fileSet st name hdr hout (by rw [hk]; exact hat) hidx
      simp only [walkNames, hv] at h
      rw [hsize, hk] at h
      simp only [firstFit]
      by_cases hlt : wrapInt64 (st.size + sz) < levelThreshold pow s k
      · simp only [hlt, if_true] at h ⊢
        have hfix := walk_fixed pow s fileSet rest _ st1 (by exact levelPath_ne_empty fileSet k) h
        constructor
        · intro L hL
          simp only [Option.some.injEq] at hL
          subst hL
          rw [hfix]
          simp
        · intro hc
          simp at hc
      · simp only [hlt, if_false] at h ⊢
        have hih := ih szs (k + 1)
          { objC := st.objC, level := k + 1, size := wrapInt64 (st.size + sz),
            spec := { Output := "", Input := st.spec.Input ++ [name] } } st1 hrest
          rfl rfl h
        constructor
        · intro L hL
          obtain ⟨h1, h2⟩ := hih.1 L hL
          have hb := firstFit_bounds _ _ _ _ _ hL
          refine ⟨h1, ?_⟩
          rw [h2]
          have : L + 1 - k = (L + 1 - (k + 1)) + 1 := by omega
          rw [this]
          simp
        · intro hn
          obtain ⟨h1, h2⟩ := hih.2 hn
          refine ⟨h1, ?_⟩
          rw [h2]
          simp

/-! ## Lemmas: the walk does not fail on a healthy store -/

theorem wrapInt64_of_inInt64 {x : Int} (h : inInt64 x) : wrapInt64 x = x := by
  unfold inInt64 at h
  unfold wrapInt64
  omega

theorem levelThreshold_exact (pow : Int → Nat → Int) (s : Storage) (diffSize : Int)
    (sizes : List Int) (hno : NoOverflow pow s diffSize sizes) (k : Nat) (hk : k < sizes.length) :
    levelThreshold pow s k = exactThreshold s k := by
  obtain ⟨hp, ht, _⟩ := hno k hk
  unfold levelThreshold
  rw [hp]
  exact wrapInt64_of_inInt64 ht

/-- Without overflow the size test of the code is the exact one: `firstFit`
finds the smallest level whose running total is below the exact threshold. -/
theorem firstFit_exact (pow : Int → Nat → Int) (s : Storage) (diffSize : Int) (all : List Int)
    (hno : NoOverflow pow s diffSize all) :
    ∀ (sizes : List Int) (k : Nat), all.drop k = sizes →
      (∀ L, firstFit (levelThreshold pow s) k (diffSize + (all.take k).sum) sizes = some L →
          L < all.length ∧ fits s diffSize all L ∧ ∀ l, k ≤ l → l < L → ¬ fits s diffSize all l) ∧
        (firstFit (levelThreshold pow s) k (diffSize + (all.take k).sum) sizes = none →
          ∀ l, k ≤ l → l < all.length → ¬ fits s diffSize all l) := by
  intro sizes
  induction sizes with
  | nil =>
    intro k hd
    have hlen : all.length ≤ k := List.drop_eq_nil_iff.1 hd
    constructor
    · intro L h; simp [firstFit] at h
    · intro _ l h1 h2; omega
  | cons sz rest ih =>
    intro k hd
    have hk : k < all.length := by
      by_contra hc
      have : all.drop k = [] := List.drop_eq_nil_iff.2 (by omega)
      rw [this] at hd
      simp at hd
    have hcons : all.drop k = all[k] :: all.drop (k + 1) := List.drop_eq_getElem_cons hk
    rw [hcons] at hd
    simp only [List.cons.injEq] at hd
    obtain ⟨hsz, hrest⟩ := hd
    have hsum : diffSize + (all.take k).sum + sz = runningTotal diffSize all k := by
      unfold runningTotal
      rw [List.sum_take_succ all k hk, hsz]
      ring
    have hwrap : wrapInt64 (diffSize + (all.take k).sum + sz) = runningTotal diffSize all k := by
      rw [hsum]
      exact wrapInt64_of_inInt64 (hno k hk).2.2
    have hthr := levelThreshold_exact pow s diffSize all hno k hk
    simp only [firstFit, hwrap, hthr]
    by_cases hf : runningTotal diffSize all k < exactThreshold s k
    · simp only [hf, if_true]
      constructor
      · intro L hL
        simp only [Option.some.injEq] at hL
        subst hL
        exact ⟨hk, hf, fun l h1 h2 => by omega⟩
      · intro hc; simp at hc
    · simp only [hf, if_false]
      have hacc : runningTotal diffSize all k = diffSize + (all.take (k + 1)).sum := rfl
      rw [hacc]
      obtain ⟨ih1, ih2⟩ := ih (k + 1) hrest
      constructor
      · intro L hL
        obtain ⟨h1, h2, h3⟩ := ih1 L hL
        refine ⟨h1, h2, ?_⟩
        intro l hl1 hl2
        by_cases hlk : l = k
        · subst hlk; exact hf
        · exact h3 l (by omega) hl2
      · intro hn l hl1 hl2
        by_cases hlk : l = k
        · subst hlk; exact hf
        · exact ih2 hn l (by omega) hl2

/-! ## Lemmas: `CompactSpec` as a whole -/

theorem compactSpec_ok_iff (pow : Int → Nat → Int) (s : Storage) (objC : ObjClient)
    (fileSet compactedFileSet : String) (spec : CompactSpec) :
    (Storage.CompactSpec pow s objC fileSet compactedFileSet).1 = .ok spec ↔
      ∃ hdr st1, GetTopLevelIndex objC (pathJoin [applyPrefix fileSet, Diff]) = .ok hdr ∧
        walkNames (compactVisit pow s (applyPrefix fileSet))
          (objC.listing (pathJoin [applyPrefix compactedFileSet, Compacted]))
          (startState objC (applyPrefix fileSet) hdr.Idx.SizeBytes) = (none, st1) ∧
        st1.spec = spec := by
  unfold Storage.CompactSpec startState
  dsimp only
  cases hG : GetTopLevelIndex objC (pathJoin [applyPrefix fileSet, Diff]) with
  | error e => simp
  | ok hdr =>
    dsimp only
    cases hW : walkNames (compactVisit pow s (applyPrefix fileSet))
        (objC.listing (pathJoin [applyPrefix compactedFileSet, Compacted]))
        { objC := objC, level := 0, size := hdr.Idx.SizeBytes,
          spec := { Output := "", Input := [pathJoin [applyPrefix fileSet, Diff]] } } with
    | mk eo st1 =>
      cases eo with
      | some e => simp [hW]
      | none => simp [hW]

/-- What `CompactSpec` returns over contiguous levels: the first level passing
the size test of the code decides both the output and the inputs. -/
theorem compactSpec_firstFit (pow : Int → Nat → Int) (s : Storage) (objC : ObjClient)
    (fileSet compactedFileSet : String) (diffSize : Int) (sizes : List Int) (spec : CompactSpec)
    (hdiff : topLevelSize objC (pathJoin [applyPrefix fileSet, Diff]) = .ok diffSize)
    (hlev : levelsFrom objC 0
      (objC.listing (pathJoin [applyPrefix compactedFileSet, Compacted])) sizes)
    (hres : (Storage.CompactSpec pow s objC fileSet compactedFileSet).1 = .ok spec) :
    (∀ L, firstFit (levelThreshold pow s) 0 diffSize sizes = some L →
        spec.Output = pathJoin [applyPrefix fileSet, Compacted, Itoa L] ∧
          spec.Input = pathJoin [applyPrefix fileSet, Diff] ::
            (objC.listing (pathJoin [applyPrefix compactedFileSet, Compacted])).take (L + 1)) ∧
      (firstFit (levelThreshold pow s) 0 diffSize sizes = none →
        spec.Output = "" ∧
          spec.Input = pathJoin [applyPrefix fileSet, Diff] ::
            objC.listing (pathJoin [applyPrefix compactedFileSet, Compacted])) := by
  obtain ⟨hdr, st1, hG, hW, hspec⟩ := (compactSpec_ok_iff pow s objC fileSet compactedFileSet spec).1 hres
  obtain ⟨hdr2, hG2, hsz⟩ := topLevelSize_ok hdiff
  rw [hG] at hG2
  simp only [Except.ok.injEq] at hG2
  subst hG2
  rw [hsz] at hW
  have := walk_unfixed pow s (applyPrefix fileSet) _ sizes 0
    (startState objC (applyPrefix fileSet) diffSize) st1 hlev rfl rfl hW
  rw [hspec] at this
  simpa [startState] using this

theorem firstFit_exact_zero (pow : Int → Nat → Int) (s : Storage) (diffSize : Int)
    (sizes : List Int) (hno : NoOverflow pow s diffSize sizes) :
    (∀ L, firstFit (levelThreshold pow s) 0 diffSize sizes = some L →
        L < sizes.length ∧ fits s diffSize sizes L ∧ ∀ l, l < L → ¬ fits s diffSize sizes l) ∧
      (firstFit (levelThreshold pow s) 0 diffSize sizes = none →
        ∀ l, l < sizes.length → ¬ fits s diffSize sizes l) := by
  have h := firstFit_exact pow s diffSize sizes hno sizes 0 rfl
  simp only [List.take_zero, List.sum_nil, add_zero] at h
  exact ⟨fun L hL => ⟨(h.1 L hL).1, (h.1 L hL).2.1, fun l hl => (h.1 L hL).2.2 l (Nat.zero_le _) hl⟩,
    fun hn l hl => h.2 hn l (Nat.zero_le _) hl⟩

/-! ## `CompactSpec`: the claims -/

/-- C1, amended: over the levels `0..n-1` visited in increasing order (the
`k`-th name visited is level `k`), and when at every level `L < n` the
floating-point power `levelSizeBase^L` is exact, `levelZeroSize * levelSizeBase^L`
fits `int64` and the running total fits `int64`: whenever `CompactSpec` succeeds
with an output fixed, the output is `<fileSet>/compacted/L` for the smallest
level `L` whose running total, the size of the diff plus the sizes of the
levels `0..L` with level `L` itself included, is below
`levelZeroSize * levelSizeBase^L`. -/
theorem compactSpec_output_smallest_level (pow : Int → Nat → Int) (s : Storage) (objC : ObjClient)
    (fileSet compactedFileSet : String) (diffSize : Int) (sizes : List Int) (spec : CompactSpec)
    (hdiff : topLevelSize objC (pathJoin [applyPrefix fileSet, Diff]) = .ok diffSize)
    (hlev : levelsFrom objC 0
      (objC.listing (pathJoin [applyPrefix compactedFileSet, Compacted])) sizes)
    (hno : NoOverflow pow s diffSize sizes)
    (hres : (Storage.CompactSpec pow s objC fileSet compactedFileSet).1 = .ok spec)
    (hfixed : spec.Output ≠ "") :
    ∃ L, L < sizes.length ∧
      spec.Output = pathJoin [applyPrefix fileSet, Compacted, Itoa L] ∧
      fits s diffSize sizes L ∧ ∀ l, l < L → ¬ fits s diffSize sizes l := by
  have hcs := compactSpec_firstFit pow s objC fileSet compactedFileSet diffSize sizes spec
    hdiff hlev hres
  have hex := firstFit_exact_zero pow s diffSize sizes hno
  cases hff : firstFit (levelThreshold pow s) 0 diffSize sizes with
  | none => exact absurd (hcs.2 hff).1 hfixed
  | some L =>
    obtain ⟨h1, h2, h3⟩ := hex.1 L hff
    exact ⟨L, h1, (hcs.1 L hff).1, h2, h3⟩

/-- C1, witness: three levels of 10 bytes under a diff of 5 bytes, level zero
of 10 bytes and base 10. -/
theorem compactSpec_output_smallest_level_witness :
    ∃ L, L < [(10 : Int), 10, 10].length ∧
      (CompactSpec.mk "pfs/a/compacted/1"
          ["pfs/a/diff", "pfs/a/compacted/0", "pfs/a/compacted/1"]).Output =
        pathJoin [applyPrefix "a", Compacted, Itoa L] ∧
      fits smallStorage 5 [10, 10, 10] L ∧ ∀ l, l < L → ¬ fits smallStorage 5 [10, 10, 10] l :=
  compactSpec_output_smallest_level exactPow smallStorage threeLevelStore "a" "a" 5 [10, 10, 10]
    _ (by decide) (by decide) (by decide) (by decide) (by decide)

/-- C1, counterexample: with a diff of 5 bytes and levels of 10 bytes,
`CompactSpec` fixes level 1 as the output although level 0 already passes the
test that leaves the level itself out (`5 < 10`): the code counts level 0 in
(`15 < 10` fails), so the output is not the smallest level of the test over the
levels below it. -/
theorem compactSpec_output_counts_own_level :
    topLevelSize threeLevelStore (pathJoin [applyPrefix "a", Diff]) = .ok 5 ∧
      levelsFrom threeLevelStore 0
        (threeLevelStore.listing (pathJoin [applyPrefix "a", Compacted])) [10, 10, 10] ∧
      (Storage.CompactSpec exactPow smallStorage threeLevelStore "a" "a").1 =
        .ok { Output := pathJoin [applyPrefix "a", Compacted, Itoa 1],
              Input := ["pfs/a/diff", "pfs/a/compacted/0", "pfs/a/compacted/1"] } ∧
      fitsBelow smallStorage 5 [10, 10, 10] 0 ∧ ¬ fits smallStorage 5 [10, 10, 10] 0 := by
  decide

/-- C4, the code at the failing input: the compacted namespace `a` holds
level 1 only. The callback meets it while its counter is 0, so the level is
neither appended to `Input` nor copied: the output is fixed at level 0, `Input`
is the diff alone, and no object `pfs/b/compacted/1` exists afterwards. -/
theorem compactSpec_drops_level_after_gap :
    gapStore.listing (pathJoin [applyPrefix "a", Compacted]) = ["pfs/a/compacted/1"] ∧
      (Storage.CompactSpec exactPow smallStorage gapStore "b" "a").1 =
        .ok { Output := "pfs/b/compacted/0", Input := ["pfs/b/diff"] } ∧
      (Storage.CompactSpec exactPow smallStorage gapStore "b" "a").2.objects
        "pfs/b/compacted/1" = none := by
  decide

/-- C8, the code at the failing input: `pfsx` starts with the three
characters `pfs`, so `applyPrefix` and `applyPrefixes` return it unchanged, and
the result is not under `pfs/`. -/
theorem applyPrefix_keeps_name_outside_namespace :
    applyPrefix "pfsx" = "pfsx" ∧ applyPrefixes ["pfsx"] = ["pfsx"] ∧
      HasPrefix (applyPrefix "pfsx") "pfs/" = false := by
  decide

theorem peek_of_slot (w : World) (r : Reader) (h : Header) (hslot : r.peekHdr = some h) :
    r.Peek w = (.ok h, r) := by
  simp [Reader.Peek, hslot]

theorem peekTimes_of_slot (w : World) (h : Header) :
    ∀ (n : Nat) (r : Reader), r.peekHdr = some h → peekTimes w n r = r := by
  intro n
  induction n with
  | zero => intro r _; rfl
  | succ n ih =>
    intro r hslot
    simp only [peekTimes, peek_of_slot w r h hslot]
    exact ih r hslot

theorem peek_first (w : World) (r : Reader) (hdr : Header) (hslot : r.peekHdr = none)
    (hrec : w.irNext r.calls = .ok hdr) :
    r.Peek w = (.ok (indexToContentHeader hdr),
      { r with calls := r.calls ++ [Call.irNext], peekHdr := some (indexToContentHeader hdr) }) := by
  simp [Reader.Peek, Reader.next, hslot, hrec]

/-- C3, amended: on a reader whose index delivers a record next, or whose
peek slot is already filled, `n >= 1` calls of `Peek` in a row, with no `Next`
in between, all return the same header and consume one record of the index in
total. On a
reader with an empty peek slot whose index delivers the record `hdr` next, they
return the content header of `hdr`, make one call of the index reader and fill
the peek slot; on a reader whose peek slot already holds `h` (the record was
consumed by an earlier `Peek`) they return `h` and change nothing. The
following `Next` does exactly what `Next` would have done had `Peek` never been
called, same result and same state, with no further call of the index reader,
and it returns that header whenever the header carries its reserved tag. -/
theorem peek_repeated (w : World) (r : Reader) (n : Nat) (hn : 1 ≤ n) :
    (∀ hdr, r.peekHdr = none → w.irNext r.calls = .ok hdr →
        (∀ k, k < n → (Reader.Peek w (peekTimes w k r)).1 = .ok (indexToContentHeader hdr)) ∧
          peekTimes w n r =
            { r with calls := r.calls ++ [Call.irNext],
                     peekHdr := some (indexToContentHeader hdr) } ∧
          Reader.Next w (peekTimes w n r) = Reader.Next w r ∧
          (Reader.Next w (peekTimes w n r)).2.calls =
            r.calls ++ [Call.irNext, Call.crNextRange hdr.Idx.DataOp.DataRefs] ∧
          (hdr.Idx.DataOp.Tags ≠ [] →
            (Reader.Next w (peekTimes w n r)).1 = .ok (indexToContentHeader hdr))) ∧
      (∀ h, r.peekHdr = some h →
        (∀ k, k < n → Reader.Peek w (peekTimes w k r) = (.ok h, r)) ∧
          peekTimes w n r = r ∧
          (Reader.Next w (peekTimes w n r)).2.calls =
            r.calls ++ [Call.crNextRange h.Idx.DataOp.DataRefs] ∧
          (h.Idx.DataOp.Tags ≠ [] → (Reader.Next w (peekTimes w n r)).1 = .ok h)) := by
  constructor
  · intro hdr hslot hrec
    have hfirst := peek_first w r hdr hslot hrec
    have hstate : ∀ m, peekTimes w (m + 1) r =
        { r with calls := r.calls ++ [Call.irNext],
                 peekHdr := some (indexToContentHeader hdr) } := by
      intro m
      simp only [peekTimes, hfirst]
      exact peekTimes_of_slot w (indexToContentHeader hdr) m _ rfl
    obtain ⟨m, rfl⟩ : ∃ m, n = m + 1 := ⟨n - 1, by omega⟩
    have hnext : Reader.Next w
        { r with calls := r.calls ++ [Call.irNext],
                 peekHdr := some (indexToContentHeader hdr) } = Reader.Next w r := by
      simp only [Reader.Next, Reader.next, hslot, hrec]
    refine ⟨?_, hstate m, ?_, ?_, ?_⟩
    · intro k _
      cases k with
      | zero => simp only [peekTimes, hfirst]
      | succ k =>
        rw [hstate k]
        simp [Reader.Peek]
    · rw [hstate m, hnext]
    · rw [hstate m]
      simp only [Reader.Next, indexToContentHeader]
      cases hdr.Idx.DataOp.Tags <;> simp
    · intro htags
      rw [hstate m]
      simp only [Reader.Next, indexToContentHeader]
      cases htg : hdr.Idx.DataOp.Tags with
      | nil => exact absurd htg htags
      | cons t ts => simp
  · intro h hslot
    have hid : ∀ k, peekTimes w k r = r := fun k => peekTimes_of_slot w h k r hslot
    refine ⟨?_, hid n, ?_, ?_⟩
    · intro k _
      rw [hid k]
      exact peek_of_slot w r h hslot
    · rw [hid n]
      simp only [Reader.Next, hslot]
      cases h.Idx.DataOp.Tags <;> simp
    · intro htags
      rw [hid n]
      simp only [Reader.Next, hslot]
      cases htg : h.Idx.DataOp.Tags with
      | nil => exact absurd htg htags
      | cons t ts => simp

/-- C3, witness: three calls of `Peek` on a new reader over two files. -/
theorem peek_repeated_witness :
    (∀ k, k < 3 → (Reader.Peek (listWorld twoFiles false false)
        (peekTimes (listWorld twoFiles false false) k newReader)).1 =
          .ok (indexToContentHeader fileF)) ∧
      peekTimes (listWorld twoFiles false false) 3 newReader =
        { newReader with
          calls := newReader.calls ++ [Call.irNext]
          peekHdr := some (indexToContentHeader fileF) } ∧
      Reader.Next (listWorld twoFiles false false)
          (peekTimes (listWorld twoFiles false false) 3 newReader) =
        Reader.Next (listWorld twoFiles false false) newReader ∧
      (Reader.Next (listWorld twoFiles false false)
          (peekTimes (listWorld twoFiles false false) 3 newReader)).2.calls =
        newReader.calls ++ [Call.irNext, Call.crNextRange fileF.Idx.DataOp.DataRefs] ∧
      (fileF.Idx.DataOp.Tags ≠ [] →
        (Reader.Next (listWorld twoFiles false false)
          (peekTimes (listWorld twoFiles false false) 3 newReader)).1 =
            .ok (indexToContentHeader fileF)) :=
  (peek_repeated (listWorld twoFiles false false) newReader 3 (by decide)).1 fileF
    (by decide) (by decide)

/-- C5, counterexample: when closing the chunk reader fails, `Close` returns
that error at once; the only call made is `cr.Close()`, and the index reader is
never closed (it is when closing the chunk reader succeeds). -/
theorem close_leaves_index_reader_open :
    Reader.Close (listWorld twoFiles true false) newReader =
        (some (.other 7), { newReader with calls := [Call.crClose] }) ∧
      Call.irClose ∉ (Reader.Close (listWorld twoFiles true false) newReader).2.calls ∧
      Reader.Close (listWorld twoFiles false false) newReader =
        (none, { newReader with calls := [Call.crClose, Call.irClose] }) := by
  decide

/-- C7: a successful `Next` returning `h` sets the current header to `h` and
resets the tag cursor to the tags of `h` without the first one, whatever the
cursor held before and whether `h` came from the peek slot or from the index:
`PeekTag` then returns the second tag of `h` when there is one and `io.EOF`
when `h` has the reserved tag only. When no header is peeked and the index
reader answers with an error (`io.EOF` when it is exhausted), `Next` returns
that error and changes no field of the reader: the call of the index reader is
all that happened. -/
theorem next_resets_tag_cursor (w : World) (r : Reader) :
    (∀ h r1, Reader.Next w r = (.ok h, r1) →
        r1.hdr = some h ∧ r1.tags = h.Idx.DataOp.Tags.tail ∧
          (r.peekHdr = some h ∨
            r.peekHdr = none ∧ (w.irNext r.calls).map indexToContentHeader = .ok h) ∧
          (∀ t0 t1 rest, h.Idx.DataOp.Tags = t0 :: t1 :: rest → r1.PeekTag = .ok t1) ∧
          (∀ t0, h.Idx.DataOp.Tags = [t0] → r1.PeekTag = .error .EOF)) ∧
      (∀ e, r.peekHdr = none → w.irNext r.calls = .error e →
        Reader.Next w r = (.error (.error e), { r with calls := r.calls ++ [Call.irNext] })) := by
  constructor
  · intro h r1 hres
    unfold Reader.Next at hres
    cases hslot : r.peekHdr with
    | some hp =>
      rw [hslot] at hres
      dsimp only at hres
      cases htags : hp.Idx.DataOp.Tags with
      | nil => rw [htags] at hres; simp at hres
      | cons t ts =>
        rw [htags] at hres
        simp only [Prod.mk.injEq, Except.ok.injEq] at hres
        obtain ⟨h1, h2⟩ := hres
        subst h1
        subst h2
        refine ⟨rfl, by simp [htags], Or.inl rfl, ?_, ?_⟩
        · intro t0 t1 rest heq
          rw [htags] at heq
          simp only [List.cons.injEq] at heq
          simp [Reader.PeekTag, heq.2]
        · intro t0 heq
          rw [htags] at heq
          simp only [List.cons.injEq] at heq
          simp [Reader.PeekTag, heq.2]
    | none =>
      rw [hslot] at hres
      unfold Reader.next at hres
      cases hrec : w.irNext r.calls with
      | error e => rw [hrec] at hres; simp at hres
      | ok hdr =>
        rw [hrec] at hres
        dsimp only at hres
        cases htags : (indexToContentHeader hdr).Idx.DataOp.Tags with
        | nil => rw [htags] at hres; simp at hres
        | cons t ts =>
          rw [htags] at hres
          simp only [Prod.mk.injEq, Except.ok.injEq] at hres
          obtain ⟨h1, h2⟩ := hres
          subst h1
          subst h2
          refine ⟨rfl, by simp [htags], Or.inr ⟨rfl, by simp [Except.map]⟩, ?_, ?_⟩
          · intro t0 t1 rest heq
            rw [htags] at heq
            simp only [List.cons.injEq] at heq
            simp [Reader.PeekTag, heq.2]
          · intro t0 heq
            rw [htags] at heq
            simp only [List.cons.injEq] at heq
            simp [Reader.PeekTag, heq.2]
  · intro e hslot hrec
    simp [Reader.Next, Reader.next, hslot, hrec]

/-- C7, witness: `Next` on a new reader over two files resets the cursor to
`t1`, `t2`; on a reader over an empty index it returns `io.EOF`. -/
theorem next_resets_tag_cursor_witness :
    ((Reader.Next (listWorld twoFiles false false) newReader).2.hdr =
          some (indexToContentHeader fileF) ∧
        (Reader.Next (listWorld twoFiles false false) newReader).2.tags =
          (indexToContentHeader
            fileF).Idx.DataOp.Tags.tail ∧
        (newReader.peekHdr =
            some (indexToContentHeader fileF) ∨
          newReader.peekHdr = none ∧
            ((listWorld twoFiles false false).irNext newReader.calls).map indexToContentHeader =
              .ok (indexToContentHeader fileF)) ∧
        (∀ t0 t1 rest,
          (indexToContentHeader
            fileF).Idx.DataOp.Tags = t0 :: t1 :: rest →
          (Reader.Next (listWorld twoFiles false false) newReader).2.PeekTag = .ok t1) ∧
        (∀ t0,
          (indexToContentHeader
            fileF).Idx.DataOp.Tags = [t0] →
          (Reader.Next (listWorld twoFiles false false) newReader).2.PeekTag = .error .EOF)) ∧
      Reader.Next (listWorld [] false false) newReader =
        (.error (.error .EOF), { newReader with calls := newReader.calls ++ [Call.irNext] }) :=
  ⟨(next_resets_tag_cursor (listWorld twoFiles false false) newReader).1
      (indexToContentHeader fileF)
      (Reader.Next (listWorld twoFiles false false) newReader).2 (by decide),
    (next_resets_tag_cursor (listWorld [] false false) newReader).2 .EOF (by decide) (by decide)⟩

/-! ## `Reader.readCopyTags` -/

theorem wrapInt64_idem (x : Int) : wrapInt64 (wrapInt64 x) = wrapInt64 x := by
  unfold wrapInt64
  omega

theorem wrapInt64_add_left (a b : Int) : wrapInt64 (wrapInt64 a + b) = wrapInt64 (a + b) := by
  unfold wrapInt64
  omega

/-- The loop of `readCopyTags` stops at the first tag that is not before the
bound: `idx` counts the tags before it and `numBytes` is the `int64` sum of
their sizes. -/
theorem copyLoop_eq (tagBound : List String) :
    ∀ (tags : List Tag) (i : Nat) (numBytes : Int), wrapInt64 numBytes = numBytes →
      copyLoop tagBound tags i i numBytes =
        (i + (tags.takeWhile (fun t => BeforeBound t.Id tagBound)).length,
          wrapInt64 (numBytes + sumSizes (tags.takeWhile (fun t => BeforeBound t.Id tagBound)))) := by
  intro tags
  induction tags with
  | nil =>
    intro i nb hnb
    simp [copyLoop, sumSizes, hnb]
  | cons t rest ih =>
    intro i nb hnb
    by_cases hb : BeforeBound t.Id tagBound = true
    · simp only [copyLoop, hb, Bool.not_true, Bool.false_eq_true, if_false, List.takeWhile_cons,
        if_true, List.length_cons]
      rw [ih (i + 1) _ (wrapInt64_idem _)]
      simp only [sumSizes, List.map_cons, List.sum_cons, wrapInt64_add_left]
      refine Prod.ext (by simp; omega) ?_
      simp only
      congr 1
      ring
    · simp only [Bool.not_eq_true] at hb
      simp [copyLoop, hb, sumSizes, hnb]

theorem take_length_takeWhile {α : Type} (p : α → Bool) :
    ∀ l : List α, l.take (l.takeWhile p).length = l.takeWhile p := by
  intro l
  induction l with
  | nil => rfl
  | cons a rest ih =>
    by_cases h : p a = true
    · simp [List.takeWhile_cons, h, ih]
    · simp [List.takeWhile_cons, h]

theorem drop_length_takeWhile {α : Type} (p : α → Bool) :
    ∀ l : List α, l.drop (l.takeWhile p).length = l.dropWhile p := by
  intro l
  induction l with
  | nil => rfl
  | cons a rest ih =>
    by_cases h : p a = true
    · simp [List.takeWhile_cons, List.dropWhile_cons, h, ih]
    · simp [List.takeWhile_cons, List.dropWhile_cons, h]

theorem setupReader_fields (w : World) (r : Reader) :
    (r.setupReader w).2.tags = r.tags ∧ (r.setupReader w).2.hdr = r.hdr ∧
      (r.setupReader w).2.peekHdr = r.peekHdr := by
  unfold Reader.setupReader
  split_ifs <;> simp

/-- What a successful `readCopyTags` does: after the lazy setup, `ReadCopy` and
`Skip` are called with the same byte count, the tags before the first tag that
is not before the bound are returned, and the cursor keeps the rest. -/
theorem readCopyTags_ok (w : World) (r : Reader) (tagBound : List String) (c : copyTags)
    (r1 : Reader) (hres : r.readCopyTags w tagBound = (.ok c, r1)) :
    c.tags = r.tags.takeWhile (fun t => BeforeBound t.Id tagBound) ∧
      r1.tags = r.tags.dropWhile (fun t => BeforeBound t.Id tagBound) ∧
      c.hdr = r.hdr ∧
      r1.calls = (r.setupReader w).2.calls ++
        [Call.crReadCopy (wrapInt64 (sumSizes c.tags)), Call.trSkip (wrapInt64 (sumSizes c.tags))] := by
  obtain ⟨htags, hhdr, _⟩ := setupReader_fields w r
  unfold Reader.readCopyTags at hres
  cases hs : r.setupReader w with
  | mk eo r0 =>
    rw [hs] at hres htags hhdr
    dsimp only at htags hhdr
    cases eo with
    | some e => simp at hres
    | none =>
      dsimp only at hres
      rw [htags, copyLoop_eq tagBound r.tags 0 0 (by decide)] at hres
      simp only [zero_add] at hres
      cases hrc : w.crReadCopy r0.calls
          (wrapInt64 (sumSizes (r.tags.takeWhile (fun t => BeforeBound t.Id tagBound)))) with
      | error e => rw [hrc] at hres; simp at hres
      | ok content =>
        rw [hrc] at hres
        dsimp only at hres
        split at hres
        · simp at hres
        · simp only [Prod.mk.injEq, Except.ok.injEq] at hres
          obtain ⟨h1, h2⟩ := hres
          subst h1
          subst h2
          dsimp only
          rw [hhdr]
          refine ⟨?_, ?_, rfl, ?_⟩
          · exact take_length_takeWhile _ _
          · exact drop_length_takeWhile _ _
          · simp [take_length_takeWhile]

theorem charsLess_of_lt_of_not_lt :
    ∀ (a b c : List Char), charsLess a b = true → charsLess c b = false → charsLess a c = true := by
  intro a
  induction a with
  | nil =>
    intro b c hab hcb
    cases b with
    | nil => simp [charsLess] at hab
    | cons y bs =>
      cases c with
      | nil => simp [charsLess] at hcb
      | cons z cs => simp [charsLess]
  | cons x as ih =>
    intro b c hab hcb
    cases b with
    | nil => simp [charsLess] at hab
    | cons y bs =>
      cases c with
      | nil => simp [charsLess] at hcb
      | cons z cs =>
        simp only [charsLess, Bool.or_eq_true, Bool.and_eq_true, decide_eq_true_eq,
          Bool.or_eq_false_iff, Bool.and_eq_false_imp, decide_eq_false_iff_not] at hab hcb ⊢
        obtain ⟨hzy, hcs⟩ := hcb
        rcases hab with hxy | ⟨hxy, hasbs⟩
        · left; omega
        · by_cases hzy2 : z.toNat = y.toNat
          · right
            exact ⟨by omega, ih bs cs hasbs (hcs hzy2)⟩
          · left; omega

/-- In an ordered tag list the tags before a bound form a prefix. -/
theorem takeWhile_eq_filter_of_ordered (tagBound : List String) :
    ∀ tags : List Tag, tagBound = [] ∨ TagsOrdered tags →
      tags.takeWhile (fun t => BeforeBound t.Id tagBound) =
          tags.filter (fun t => BeforeBound t.Id tagBound) ∧
        tags.dropWhile (fun t => BeforeBound t.Id tagBound) =
          tags.filter (fun t => !BeforeBound t.Id tagBound) := by
  intro tags
  induction tags with
  | nil => intro _; simp
  | cons t rest ih =>
    intro hord
    have hrest : tagBound = [] ∨ TagsOrdered rest := by
      rcases hord with h | h
      · exact Or.inl h
      · exact Or.inr (List.Pairwise.of_cons h)
    obtain ⟨ih1, ih2⟩ := ih hrest
    by_cases hb : BeforeBound t.Id tagBound = true
    · simp [List.takeWhile_cons, List.dropWhile_cons, List.filter_cons, hb, ih1, ih2]
    · simp only [Bool.not_eq_true] at hb
      have hnone : ∀ u ∈ rest, BeforeBound u.Id tagBound = false := by
        intro u hu
        rcases hord with h | h
        · subst h
          simp [BeforeBound] at hb
        · cases tagBound with
          | nil => simp [BeforeBound] at hb
          | cons bound bs =>
            simp only [BeforeBound] at hb ⊢
            have hut : charsLess u.Id.data t.Id.data = false := List.rel_of_pairwise_cons h hu
            by_contra hc
            simp only [Bool.not_eq_false] at hc
            have := charsLess_of_lt_of_not_lt _ _ _ hc hb
            rw [hut] at this
            exact Bool.false_ne_true this
      have hf1 : rest.filter (fun t => BeforeBound t.Id tagBound) = [] := by
        rw [List.filter_eq_nil_iff]
        intro u hu
        simp [hnone u hu]
      have hf2 : rest.filter (fun t => !BeforeBound t.Id tagBound) = rest := by
        rw [List.filter_eq_self]
        intro u hu
        simp [hnone u hu]
      simp [List.takeWhile_cons, List.dropWhile_cons, List.filter_cons, hb, hf1, hf2]

/-- C2, amended: when the identifiers of the remaining tags are in
non-decreasing order (or no bound is given), a successful `readCopyTags`
returns exactly the remaining tags whose identifiers sort strictly before the
bound, the cursor keeps exactly the tags that are not before the bound, and the
byte count passed to `ReadCopy` is the `int64` sum of the `SizeBytes` of the
returned tags, which is their exact sum whenever that fits `int64`. -/
theorem readCopyTags_returns_tags_before_bound (w : World) (r : Reader)
    (tagBound : List String) (c : copyTags) (r1 : Reader)
    (hord : tagBound = [] ∨ TagsOrdered r.tags)
    (hres : r.readCopyTags w tagBound = (.ok c, r1)) :
    c.tags = r.tags.filter (fun t => BeforeBound t.Id tagBound) ∧
      r1.tags = r.tags.filter (fun t => !BeforeBound t.Id tagBound) ∧
      r1.calls = (r.setupReader w).2.calls ++
        [Call.crReadCopy (wrapInt64 (sumSizes c.tags)), Call.trSkip (wrapInt64 (sumSizes c.tags))] ∧
      (inInt64 (sumSizes c.tags) → wrapInt64 (sumSizes c.tags) = sumSizes c.tags) := by
  obtain ⟨h1, h2, _, h4⟩ := readCopyTags_ok w r tagBound c r1 hres
  obtain ⟨e1, e2⟩ := takeWhile_eq_filter_of_ordered tagBound r.tags hord
  exact ⟨by rw [h1, e1], by rw [h2, e2], h4, wrapInt64_of_inInt64⟩

/-- C2, witness: the tags `t1`, `t2`, `t3` read up to the bound `t3`. -/
theorem readCopyTags_returns_tags_before_bound_witness :
    (Reader.readCopyTags (listWorld twoFiles false false) orderedReader ["t3"]).1 =
        .ok { hdr := orderedReader.hdr, content := { chunkRefs := [] },
              tags := [⟨"t1", 3⟩, ⟨"t2", 3⟩] } ∧
      ([⟨"t1", 3⟩, ⟨"t2", 3⟩] : List Tag) =
        orderedReader.tags.filter (fun t => BeforeBound t.Id ["t3"]) ∧
      (Reader.readCopyTags (listWorld twoFiles false false) orderedReader ["t3"]).2.tags =
        orderedReader.tags.filter (fun t => !BeforeBound t.Id ["t3"]) ∧
      (Reader.readCopyTags (listWorld twoFiles false false) orderedReader ["t3"]).2.calls =
        (orderedReader.setupReader (listWorld twoFiles false false)).2.calls ++
          [Call.crReadCopy (wrapInt64 (sumSizes [⟨"t1", 3⟩, ⟨"t2", 3⟩])),
            Call.trSkip (wrapInt64 (sumSizes [⟨"t1", 3⟩, ⟨"t2", 3⟩]))] ∧
      (inInt64 (sumSizes [⟨"t1", 3⟩, ⟨"t2", 3⟩]) →
        wrapInt64 (sumSizes [⟨"t1", 3⟩, ⟨"t2", 3⟩]) = sumSizes [⟨"t1", 3⟩, ⟨"t2", 3⟩]) :=
  ⟨by decide,
    readCopyTags_returns_tags_before_bound (listWorld twoFiles false false) orderedReader ["t3"]
      { hdr := orderedReader.hdr, content := { chunkRefs := [] }, tags := [⟨"t1", 3⟩, ⟨"t2", 3⟩] }
      (Reader.readCopyTags (listWorld twoFiles false false) orderedReader ["t3"]).2
      (Or.inr (by decide)) (by decide)⟩

/-- C2, counterexample: with the remaining tags `b`, `a` and the bound `b`,
`readCopyTags` succeeds, returns no tag and requests 0 bytes, and leaves the
tag `a` in the cursor although `a` sorts strictly before the bound. -/
theorem readCopyTags_leaves_tag_before_bound :
    Reader.readCopyTags (listWorld twoFiles false false) unorderedReader ["b"] =
        (.ok { hdr := unorderedReader.hdr, content := { chunkRefs := [] }, tags := [] },
          { unorderedReader with
            tr := true
            calls := unorderedReader.calls ++
              [Call.tarNewReader, Call.trNext, Call.crReadCopy 0, Call.trSkip 0] }) ∧
      (⟨"a", 1⟩ : Tag) ∈
        (Reader.readCopyTags (listWorld twoFiles false false) unorderedReader ["b"]).2.tags ∧
      BeforeBound (⟨"a", 1⟩ : Tag).Id ["b"] = true := by
  decide

/-- C6, amended: when `readCopyTags` fails in the lazy setup or in the chunk
`ReadCopy`, it returns that error and the tag cursor is the one from before the
call, so `PeekTag` answers as before. -/
theorem readCopyTags_error_keeps_cursor (w : World) (r : Reader) (tagBound : List String)
    (e : Error)
    (hfrom : (r.setupReader w).1 = some e ∨
      ((r.setupReader w).1 = none ∧
        w.crReadCopy (r.setupReader w).2.calls (copyLoop tagBound r.tags 0 0 0).2 = .error e)) :
    (r.readCopyTags w tagBound).1 = .error e ∧
      (r.readCopyTags w tagBound).2.tags = r.tags ∧
      (r.readCopyTags w tagBound).2.PeekTag = r.PeekTag := by
  obtain ⟨htags, _, _⟩ := setupReader_fields w r
  have key : (r.readCopyTags w tagBound).1 = .error e ∧
      (r.readCopyTags w tagBound).2.tags = r.tags := by
    unfold Reader.readCopyTags
    cases hs : r.setupReader w with
    | mk eo r0 =>
      rw [hs] at hfrom htags
      dsimp only at hfrom htags
      rcases hfrom with h | ⟨h, hrc⟩
      · subst h
        exact ⟨rfl, htags⟩
      · subst h
        dsimp only
        rw [htags, hrc]
        exact ⟨rfl, rfl⟩
  refine ⟨key.1, key.2, ?_⟩
  unfold Reader.PeekTag
  rw [key.2]

/-- C6, witness: `ReadCopy` fails on a reader with three tags left. -/
theorem readCopyTags_error_keeps_cursor_witness :
    (Reader.readCopyTags failingCopyWorld orderedReader ["t3"]).1 = .error (.other 9) ∧
      (Reader.readCopyTags failingCopyWorld orderedReader ["t3"]).2.tags = orderedReader.tags ∧
      (Reader.readCopyTags failingCopyWorld orderedReader ["t3"]).2.PeekTag =
        orderedReader.PeekTag :=
  readCopyTags_error_keeps_cursor failingCopyWorld orderedReader ["t3"] (.other 9)
    (Or.inr ⟨by decide, by decide⟩)

/-- C6, counterexample: when skipping the content stream fails, `readCopyTags`
returns the error after the cursor has moved past the copied tags: `PeekTag`
answered `t1` before the call and answers `t3` after it. -/
theorem readCopyTags_skip_error_moves_cursor :
    (Reader.readCopyTags (listWorld twoFiles false true) orderedReader ["t3"]).1 =
        .error (.other 8) ∧
      (Reader.readCopyTags (listWorld twoFiles false true) orderedReader ["t3"]).2.tags =
        [⟨"t3", 3⟩] ∧
      orderedReader.PeekTag = .ok ⟨"t1", 3⟩ ∧
      (Reader.readCopyTags (listWorld twoFiles false true) orderedReader ["t3"]).2.PeekTag =
        .ok ⟨"t3", 3⟩ := by
  decide

/-! ## `readCopyTags`: the split of the cursor -/

theorem takeWhile_all {α : Type} (p : α → Bool) :
    ∀ (l : List α) (a : α), a ∈ l.takeWhile p → p a = true := by
  intro l
  induction l with
  | nil => intro a h; simp at h
  | cons x rest ih =>
    intro a h
    by_cases hx : p x = true
    · simp only [List.takeWhile_cons, hx, if_true, List.mem_cons] at h
      rcases h with h | h
      · rw [h]; exact hx
      · exact ih a h
    · simp [List.takeWhile_cons, hx] at h

theorem dropWhile_head {α : Type} (p : α → Bool) :
    ∀ (l : List α) (a : α) (rest : List α), l.dropWhile p = a :: rest → p a = false := by
  intro l
  induction l with
  | nil => intro a rest h; simp at h
  | cons x xs ih =>
    intro a rest h
    by_cases hx : p x = true
    · simp only [List.dropWhile_cons, hx, if_true] at h
      exact ih a rest h
    · simp only [List.dropWhile_cons, hx, if_false, List.cons.injEq, Bool.false_eq_true] at h
      rw [← h.1]
      simpa using hx

/-- C11, amended: a successful `readCopyTags` splits the remaining tags `ts`
into a prefix and a suffix: the returned tags followed by the new cursor are
`ts`, in order; every returned tag is before the bound; the first tag left in
the cursor, if any, is not before the bound; and after the lazy setup
`ReadCopy` and `Skip` are called with the same byte count, the `int64` sum of
the `SizeBytes` of the returned tags: their exact sum whenever that sum fits
`int64`. -/
theorem readCopyTags_splits_cursor (w : World) (r : Reader) (tagBound : List String)
    (c : copyTags) (r1 : Reader) (hres : r.readCopyTags w tagBound = (.ok c, r1)) :
    c.tags ++ r1.tags = r.tags ∧
      (∀ t, t ∈ c.tags → BeforeBound t.Id tagBound = true) ∧
      (∀ t rest, r1.tags = t :: rest → BeforeBound t.Id tagBound = false) ∧
      r1.calls = (r.setupReader w).2.calls ++
        [Call.crReadCopy (wrapInt64 (sumSizes c.tags)), Call.trSkip (wrapInt64 (sumSizes c.tags))] ∧
      (inInt64 (sumSizes c.tags) →
        r1.calls = (r.setupReader w).2.calls ++
          [Call.crReadCopy (sumSizes c.tags), Call.trSkip (sumSizes c.tags)]) := by
  obtain ⟨h1, h2, _, h4⟩ := readCopyTags_ok w r tagBound c r1 hres
  refine ⟨?_, ?_, ?_, h4, ?_⟩
  · rw [h1, h2]
    exact List.takeWhile_append_dropWhile _ _
  · intro t ht
    rw [h1] at ht
    exact takeWhile_all (fun t => BeforeBound t.Id tagBound) r.tags t ht
  · intro t rest ht
    rw [h2] at ht
    exact dropWhile_head (fun t => BeforeBound t.Id tagBound) r.tags t rest ht
  · intro hfit
    rw [h4, wrapInt64_of_inInt64 hfit]

/-- C11, witness: the tags `a`, `c`, `b` read up to the bound `c`: `a` is
returned with a byte count of 2, and the cursor keeps `c`, which is not before
the bound, followed by `b`. -/
theorem readCopyTags_splits_cursor_witness :
    Reader.readCopyTags mixedWorld (newReader.Next mixedWorld).2 ["c"] =
        (.ok { hdr := some (indexToContentHeader mixedHeader), content := { chunkRefs := [] },
               tags := [⟨"a", 2⟩] },
          { calls := [Call.irNext, Call.crNextRange mixedHeader.Idx.DataOp.DataRefs,
              Call.tarNewReader, Call.trNext, Call.crReadCopy 2, Call.trSkip 2],
            tr := true, hdr := some (indexToContentHeader mixedHeader), peekHdr := none,
            tags := [⟨"c", 3⟩, ⟨"b", 4⟩] }) ∧
      BeforeBound (⟨"c", 3⟩ : Tag).Id ["c"] = false ∧
      (Reader.readCopyTags mixedWorld (newReader.Next mixedWorld).2 ["c"]).2.calls =
        ((newReader.Next mixedWorld).2.setupReader mixedWorld).2.calls ++
          [Call.crReadCopy (sumSizes [⟨"a", 2⟩]), Call.trSkip (sumSizes [⟨"a", 2⟩])] :=
  ⟨by decide,
    (readCopyTags_splits_cursor mixedWorld (newReader.Next mixedWorld).2 ["c"]
      { hdr := some (indexToContentHeader mixedHeader), content := { chunkRefs := [] },
        tags := [⟨"a", 2⟩] }
      (Reader.readCopyTags mixedWorld (newReader.Next mixedWorld).2 ["c"]).2
      (by decide)).2.2.1 ⟨"c", 3⟩ [⟨"b", 4⟩] (by decide),
    (readCopyTags_splits_cursor mixedWorld (newReader.Next mixedWorld).2 ["c"]
      { hdr := some (indexToContentHeader mixedHeader), content := { chunkRefs := [] },
        tags := [⟨"a", 2⟩] }
      (Reader.readCopyTags mixedWorld (newReader.Next mixedWorld).2 ["c"]).2
      (by decide)).2.2.2.2 (by decide)⟩

/-- C11, counterexample: with the tags `a` of `2^63 - 1` bytes and `b` of one
byte and no bound, `readCopyTags` returns both tags, whose sizes sum to `2^63`,
and calls `ReadCopy` and `Skip` with `-2^63`: the `int64` sum has wrapped
around. -/
theorem readCopyTags_byte_count_wraps :
    (Reader.readCopyTags hugeTagsWorld (newReader.Next hugeTagsWorld).2 []).1 =
        .ok { hdr := some (indexToContentHeader hugeTagsHeader), content := { chunkRefs := [] },
              tags := [⟨"a", 9223372036854775807⟩, ⟨"b", 1⟩] } ∧
      (Reader.readCopyTags hugeTagsWorld (newReader.Next hugeTagsWorld).2 []).2.calls =
        [Call.irNext, Call.crNextRange [], Call.tarNewReader, Call.trNext,
          Call.crReadCopy (-9223372036854775808), Call.trSkip (-9223372036854775808)] ∧
      sumSizes [⟨"a", 9223372036854775807⟩, ⟨"b", 1⟩] = 9223372036854775808 := by
  decide

/-! ## The threshold of a level -/

theorem levelThreshold_of_exact (pow : Int → Nat → Int) (s : Storage) (L : Nat)
    (hp : pow s.levelSizeBase L = s.levelSizeBase ^ L) (hr : inInt64 (exactThreshold s L)) :
    levelThreshold pow s L = exactThreshold s L := by
  unfold levelThreshold
  rw [hp]
  exact wrapInt64_of_inInt64 hr

theorem exactThreshold_mono (s : Storage) (hz : 0 < s.levelZeroSize) (hb : 1 ≤ s.levelSizeBase)
    (L L' : Nat) (hLL : L ≤ L') :
    0 < exactThreshold s L ∧ exactThreshold s L ≤ exactThreshold s L' := by
  unfold exactThreshold
  have hpos : 0 < s.levelSizeBase ^ L := pow_pos (by omega) L
  have hle : s.levelSizeBase ^ L ≤ s.levelSizeBase ^ L' := pow_le_pow_right₀ hb hLL
  exact ⟨mul_pos hz hpos, mul_le_mul_of_nonneg_left hle (le_of_lt hz)⟩

/-- C12, amended: for every positive `levelZeroSize`, every
`levelSizeBase >= 1` and all levels `L <= L'` at which the floating-point power
is exact and `levelZeroSize * levelSizeBase^L'` fits `int64`, the thresholds
the size test uses at `L` and at `L'` are the exact integers
`levelZeroSize * levelSizeBase^L` and `levelZeroSize * levelSizeBase^L'`; so
over such levels the thresholds are non-decreasing, and strictly increasing
when `levelSizeBase >= 2`. -/
theorem levelThreshold_exact_monotone (pow : Int → Nat → Int) (s : Storage) (L L' : Nat)
    (hz : 0 < s.levelZeroSize) (hb : 1 ≤ s.levelSizeBase) (hLL : L ≤ L')
    (hpL : pow s.levelSizeBase L = s.levelSizeBase ^ L)
    (hpL' : pow s.levelSizeBase L' = s.levelSizeBase ^ L')
    (hr : inInt64 (exactThreshold s L')) :
    levelThreshold pow s L = exactThreshold s L ∧
      levelThreshold pow s L' = exactThreshold s L' ∧
      levelThreshold pow s L ≤ levelThreshold pow s L' ∧
      (2 ≤ s.levelSizeBase → L < L' → levelThreshold pow s L < levelThreshold pow s L') := by
  obtain ⟨hpos, hle⟩ := exactThreshold_mono s hz hb L L' hLL
  have hrL : inInt64 (exactThreshold s L) := by
    unfold inInt64 at hr ⊢
    constructor <;> omega
  have e1 := levelThreshold_of_exact pow s L hpL hrL
  have e2 := levelThreshold_of_exact pow s L' hpL' hr
  refine ⟨e1, e2, by rw [e1, e2]; exact hle, ?_⟩
  intro hb2 hlt
  rw [e1, e2]
  unfold exactThreshold
  have hstrict : s.levelSizeBase ^ L < s.levelSizeBase ^ L' :=
    pow_lt_pow_right₀ (by omega) hlt
  exact mul_lt_mul_of_pos_left hstrict hz

/-- C12, witness: level zero of `2^20` bytes and base 10, at the levels 11 and
12. -/
theorem levelThreshold_exact_monotone_witness :
    levelThreshold exactPow megaStorage 11 = exactThreshold megaStorage 11 ∧
      levelThreshold exactPow megaStorage 12 = exactThreshold megaStorage 12 ∧
      levelThreshold exactPow megaStorage 11 ≤ levelThreshold exactPow megaStorage 12 ∧
      (2 ≤ megaStorage.levelSizeBase → 11 < 12 →
        levelThreshold exactPow megaStorage 11 < levelThreshold exactPow megaStorage 12) :=
  levelThreshold_exact_monotone exactPow megaStorage 11 12 (by decide) (by decide) (by decide)
    (by decide) (by decide) (by decide)

/-- C12, counterexample: with level zero of `2^20` bytes and base 10, the
power `10^13` is below `2^53`, so the floating-point power is exact, but the
`int64` product `2^20 * 10^13` wraps around: the threshold at level 13 is
negative, differs from the exact integer and is below the threshold at level
12. -/
theorem levelThreshold_overflows_at_level_13 :
    0 < megaStorage.levelZeroSize ∧ 1 ≤ megaStorage.levelSizeBase ∧
      megaStorage.levelSizeBase ^ 13 < 2 ^ 53 ∧
      exactPow megaStorage.levelSizeBase 13 = megaStorage.levelSizeBase ^ 13 ∧
      levelThreshold exactPow megaStorage 13 = -7960984073709551616 ∧
      levelThreshold exactPow megaStorage 13 ≠ exactThreshold megaStorage 13 ∧
      levelThreshold exactPow megaStorage 13 < levelThreshold exactPow megaStorage 12 := by
  decide

/-! ## `readCopyTags` a second time -/

theorem setupReader_tr (w : World) (r : Reader) : (r.setupReader w).2.tr = true := by
  unfold Reader.setupReader
  split_ifs with h
  · rfl
  · simpa using h

theorem setupReader_of_tr (w : World) (r : Reader) (h : r.tr = true) :
    r.setupReader w = (none, r) := by
  simp [Reader.setupReader, h]

/-- Whatever its outcome, `readCopyTags` leaves `r.tr` set and does not touch
the current header or the peek slot. -/
theorem readCopyTags_frame (w : World) (r : Reader) (tagBound : List String) :
    (r.readCopyTags w tagBound).2.tr = true ∧ (r.readCopyTags w tagBound).2.hdr = r.hdr ∧
      (r.readCopyTags w tagBound).2.peekHdr = r.peekHdr := by
  obtain ⟨_, hhdr, hpeek⟩ := setupReader_fields w r
  have htr := setupReader_tr w r
  unfold Reader.readCopyTags
  cases hs : r.setupReader w with
  | mk eo r0 =>
    rw [hs] at hhdr hpeek htr
    dsimp only at hhdr hpeek htr
    cases eo with
    | some e => exact ⟨htr, hhdr, hpeek⟩
    | none =>
      dsimp only
      cases w.crReadCopy r0.calls (copyLoop tagBound r0.tags 0 0 0).2 with
      | error e => exact ⟨htr, hhdr, hpeek⟩
      | ok content =>
        dsimp only
        cases w.trSkip (r0.calls ++ [Call.crReadCopy (copyLoop tagBound r0.tags 0 0 0).2])
            (copyLoop tagBound r0.tags 0 0 0).2 with
        | some e => exact ⟨htr, hhdr, hpeek⟩
        | none => exact ⟨htr, hhdr, hpeek⟩

theorem takeWhile_dropWhile_nil {α : Type} (p : α → Bool) (l : List α) :
    (l.dropWhile p).takeWhile p = [] := by
  cases h : l.dropWhile p with
  | nil => rfl
  | cons a rest => simp [List.takeWhile_cons, dropWhile_head p l a rest h]

/-- `readCopyTags` on a reader whose content stream is set up and whose first
remaining tag, if any, is not before the bound: it asks `ReadCopy` and `Skip`
for 0 bytes, returns no tag and keeps the cursor. -/
theorem readCopyTags_nothing_to_copy (w : World) (r : Reader) (tagBound : List String)
    (htr : r.tr = true)
    (hnone : r.tags.takeWhile (fun t => BeforeBound t.Id tagBound) = []) :
    r.readCopyTags w tagBound =
      match w.crReadCopy r.calls 0 with
      | .error e => (.error e, { r with calls := r.calls ++ [Call.crReadCopy 0] })
      | .ok content =>
        match w.trSkip (r.calls ++ [Call.crReadCopy 0]) 0 with
        | some e =>
          (.error e, { r with calls := r.calls ++ [Call.crReadCopy 0] ++ [Call.trSkip 0] })
        | none =>
          (.ok { hdr := r.hdr, content := content, tags := [] },
            { r with calls := r.calls ++ [Call.crReadCopy 0] ++ [Call.trSkip 0] }) := by
  have hloop : copyLoop tagBound r.tags 0 0 0 = (0, 0) := by
    rw [copyLoop_eq tagBound r.tags 0 0 (by decide), hnone]
    simp [sumSizes]
    decide
  unfold Reader.readCopyTags
  rw [setupReader_of_tr w r htr]
  dsimp only
  rw [hloop]
  dsimp only
  cases w.crReadCopy r.calls 0 with
  | error e => rfl
  | ok content =>
    dsimp only
    cases w.trSkip (r.calls ++ [Call.crReadCopy 0]) 0 with
    | some e => simp
    | none => simp

/-- C13: after one successful `readCopyTags` with a bound, a `readCopyTags`
with the same bound that follows at once leaves the tag cursor unchanged and
asks `ReadCopy` for 0 bytes (and then `Skip` for 0 bytes); when it returns, it
returns an empty tag list, and it does return whenever `ReadCopy` and `Skip`
succeed. -/
theorem readCopyTags_twice (w : World) (r : Reader) (tagBound : List String) (c : copyTags)
    (r1 : Reader) (hres : r.readCopyTags w tagBound = (.ok c, r1)) :
    (r1.readCopyTags w tagBound).2.tags = r1.tags ∧
      (∃ after, (r1.readCopyTags w tagBound).2.calls = r1.calls ++ Call.crReadCopy 0 :: after ∧
        (after = [] ∨ after = [Call.trSkip 0])) ∧
      (∀ c2 r2, r1.readCopyTags w tagBound = (.ok c2, r2) → c2.tags = [] ∧ r2.tags = r1.tags) ∧
      (∀ content, w.crReadCopy r1.calls 0 = .ok content →
        w.trSkip (r1.calls ++ [Call.crReadCopy 0]) 0 = none →
        r1.readCopyTags w tagBound =
          (.ok { hdr := r1.hdr, content := content, tags := [] },
            { r1 with calls := r1.calls ++ [Call.crReadCopy 0, Call.trSkip 0] })) := by
  obtain ⟨_, h2, _, _⟩ := readCopyTags_ok w r tagBound c r1 hres
  have htr : r1.tr = true := by
    have := (readCopyTags_frame w r tagBound).1
    rw [hres] at this
    exact this
  have hnone : r1.tags.takeWhile (fun t => BeforeBound t.Id tagBound) = [] := by
    rw [h2]
    exact takeWhile_dropWhile_nil _ _
  have hcall := readCopyTags_nothing_to_copy w r1 tagBound htr hnone
  cases hrc : w.crReadCopy r1.calls 0 with
  | error e =>
    rw [hrc] at hcall
    dsimp only at hcall
    rw [hcall]
    refine ⟨rfl, ⟨[], rfl, Or.inl rfl⟩, ?_, ?_⟩
    · intro c2 r2 h; simp at h
    · intro content h; simp at h
  | ok content =>
    rw [hrc] at hcall
    dsimp only at hcall
    cases hsk : w.trSkip (r1.calls ++ [Call.crReadCopy 0]) 0 with
    | some e =>
      rw [hsk] at hcall
      dsimp only at hcall
      rw [hcall]
      refine ⟨rfl, ⟨[Call.trSkip 0], by simp, Or.inr rfl⟩, ?_, ?_⟩
      · intro c2 r2 h; simp at h
      · intro content2 _ h; simp at h
    | none =>
      rw [hsk] at hcall
      dsimp only at hcall
      rw [hcall]
      refine ⟨rfl, ⟨[Call.trSkip 0], by simp, Or.inr rfl⟩, ?_, ?_⟩
      · intro c2 r2 h
        simp only [Prod.mk.injEq, Except.ok.injEq] at h
        obtain ⟨h1, h2⟩ := h
        subst h1
        subst h2
        exact ⟨rfl, rfl⟩
      · intro content2 hc _
        simp only [Except.ok.injEq] at hc
        subst hc
        simp

/-- C13, witness: `readCopyTags` up to the bound `t3`, twice, on a reader with
the tags `t1`, `t2`, `t3` left. -/
theorem readCopyTags_twice_witness :
    (afterCopy.readCopyTags (listWorld twoFiles false false) ["t3"]).2.tags = afterCopy.tags ∧
      (∃ after, (afterCopy.readCopyTags (listWorld twoFiles false false) ["t3"]).2.calls =
          afterCopy.calls ++ Call.crReadCopy 0 :: after ∧
        (after = [] ∨ after = [Call.trSkip 0])) ∧
      (∀ c2 r2, afterCopy.readCopyTags (listWorld twoFiles false false) ["t3"] = (.ok c2, r2) →
        c2.tags = [] ∧ r2.tags = afterCopy.tags) ∧
      (∀ content, (listWorld twoFiles false false).crReadCopy afterCopy.calls 0 = .ok content →
        (listWorld twoFiles false false).trSkip (afterCopy.calls ++ [Call.crReadCopy 0]) 0 = none →
        afterCopy.readCopyTags (listWorld twoFiles false false) ["t3"] =
          (.ok { hdr := afterCopy.hdr, content := content, tags := [] },
            { afterCopy with calls := afterCopy.calls ++ [Call.crReadCopy 0, Call.trSkip 0] })) :=
  readCopyTags_twice (listWorld twoFiles false false) orderedReader ["t3"]
    { hdr := orderedReader.hdr, content := { chunkRefs := [] }, tags := [⟨"t1", 3⟩, ⟨"t2", 3⟩] }
    afterCopy (by decide)

/-! ## `Peek` and the file being read -/

/-- What `Peek` does to the reader: nothing when the peek slot is filled;
otherwise one call of the index reader, and the slot is filled when that call
delivers a header. -/
theorem peek_state (w : World) (r : Reader) :
    (r.Peek w).2 = r ∨
      (r.peekHdr = none ∧
        ((r.Peek w).2 = { r with calls := r.calls ++ [Call.irNext] } ∨
          ∃ hdr, w.irNext r.calls = .ok hdr ∧
            (r.Peek w).2 = { r with calls := r.calls ++ [Call.irNext],
                                    peekHdr := some (indexToContentHeader hdr) })) := by
  cases hslot : r.peekHdr with
  | some h =>
    left
    simp [Reader.Peek, hslot]
  | none =>
    right
    refine ⟨rfl, ?_⟩
    cases hrec : w.irNext r.calls with
    | error e =>
      left
      simp [Reader.Peek, Reader.next, hslot, hrec]
    | ok hdr =>
      right
      exact ⟨hdr, rfl, by simp [Reader.Peek, Reader.next, hslot, hrec]⟩

/-- C14: `Peek`, successful or not, leaves the current header, the tag cursor
and the content stream (`r.tr`, and no call of the chunk or tar reader)
unchanged: the only call it can make is one `ir.Next()`, and the only field it
can set is the peek slot. So `PeekTag` answers the same after a `Peek` as
before, the loop of `readCopyTags` selects the same tags and byte count, and
two successful `readCopyTags`, one before and one after the `Peek`, return the
same tags and header and leave the same cursor. -/
theorem peek_leaves_current_file (w : World) (r : Reader) :
    (r.Peek w).2.hdr = r.hdr ∧ (r.Peek w).2.tags = r.tags ∧ (r.Peek w).2.tr = r.tr ∧
      ((r.Peek w).2.calls = r.calls ∨ (r.Peek w).2.calls = r.calls ++ [Call.irNext]) ∧
      (r.Peek w).2 = { r with peekHdr := (r.Peek w).2.peekHdr, calls := (r.Peek w).2.calls } ∧
      (r.Peek w).2.PeekTag = r.PeekTag ∧
      (∀ tagBound, copyLoop tagBound (r.Peek w).2.tags 0 0 0 = copyLoop tagBound r.tags 0 0 0) ∧
      (∀ tagBound c r1 c' r1', r.readCopyTags w tagBound = (.ok c, r1) →
        (r.Peek w).2.readCopyTags w tagBound = (.ok c', r1') →
        c'.tags = c.tags ∧ c'.hdr = c.hdr ∧ r1'.tags = r1.tags) := by
  have hfields : (r.Peek w).2.hdr = r.hdr ∧ (r.Peek w).2.tags = r.tags ∧
      (r.Peek w).2.tr = r.tr ∧
      ((r.Peek w).2.calls = r.calls ∨ (r.Peek w).2.calls = r.calls ++ [Call.irNext]) := by
    rcases peek_state w r with h | ⟨_, h | ⟨hdr, _, h⟩⟩
    · rw [h]; exact ⟨rfl, rfl, rfl, Or.inl rfl⟩
    · rw [h]; exact ⟨rfl, rfl, rfl, Or.inr rfl⟩
    · rw [h]; exact ⟨rfl, rfl, rfl, Or.inr rfl⟩
  obtain ⟨hh, ht, htr, hc⟩ := hfields
  refine ⟨hh, ht, htr, hc, ?_, ?_, ?_, ?_⟩
  · rcases peek_state w r with h | ⟨_, h | ⟨hdr, _, h⟩⟩ <;> rw [h]
  · unfold Reader.PeekTag
    rw [ht]
  · intro tagBound
    rw [ht]
  · intro tagBound c r1 c' r1' h1 h2
    obtain ⟨a1, a2, a3, _⟩ := readCopyTags_ok w r tagBound c r1 h1
    obtain ⟨b1, b2, b3, _⟩ := readCopyTags_ok w (r.Peek w).2 tagBound c' r1' h2
    rw [ht] at b1 b2
    rw [hh] at b3
    exact ⟨by rw [a1, b1], by rw [a3, b3], by rw [a2, b2]⟩

/-- C14, witness: `Peek` in the middle of the file `/f`. -/
theorem peek_leaves_current_file_witness :
    ((orderedReader.Peek (listWorld twoFiles false false)).2.hdr = orderedReader.hdr ∧
        (orderedReader.Peek (listWorld twoFiles false false)).2.tags = orderedReader.tags ∧
        (orderedReader.Peek (listWorld twoFiles false false)).2.tr = orderedReader.tr) ∧
      (orderedReader.Peek (listWorld twoFiles false false)).2.PeekTag = .ok ⟨"t1", 3⟩ ∧
      ((orderedReader.Peek (listWorld twoFiles false false)).2.readCopyTags
          (listWorld twoFiles false false) ["t3"]).1 =
        (orderedReader.readCopyTags (listWorld twoFiles false false) ["t3"]).1 :=
  ⟨⟨(peek_leaves_current_file (listWorld twoFiles false false) orderedReader).1,
      (peek_leaves_current_file (listWorld twoFiles false false) orderedReader).2.1,
      (peek_leaves_current_file (listWorld twoFiles false false) orderedReader).2.2.1⟩,
    by decide, by decide⟩

/-! ## `Next` and the slice `Tags[1:]` -/

theorem next_peekHdr (w : World) (r : Reader) : (r.Next w).2.peekHdr = none := by
  unfold Reader.Next
  cases hslot : r.peekHdr with
  | some h =>
    dsimp only
    cases h.Idx.DataOp.Tags <;> rfl
  | none =>
    unfold Reader.next
    cases hrec : w.irNext r.calls with
    | error e => exact hslot
    | ok hdr =>
      dsimp only
      cases (indexToContentHeader hdr).Idx.DataOp.Tags <;> exact hslot

theorem close_peekHdr (w : World) (r : Reader) : (r.Close w).2.peekHdr = r.peekHdr := by
  unfold Reader.Close
  cases w.crClose r.calls <;> rfl

/-- Over an index whose headers all carry a tag, the peek slot of a reachable
reader never holds a header without tags. -/
theorem reachable_slot_tagged (w : World) (hw : WellTagged w) :
    ∀ r, Reachable w r → ∀ h, r.peekHdr = some h → h.Idx.DataOp.Tags ≠ [] := by
  intro r hr
  induction hr with
  | new => intro h hslot; simp [newReader] at hslot
  | Next r0 _ _ =>
    intro h hslot
    rw [next_peekHdr] at hslot
    simp at hslot
  | Peek r0 _ ih =>
    intro h hslot
    rcases peek_state w r0 with hs | ⟨_, hs | ⟨hdr, hrec, hs⟩⟩
    · rw [hs] at hslot
      exact ih h hslot
    · rw [hs] at hslot
      exact ih h hslot
    · rw [hs] at hslot
      simp only [Option.some.injEq] at hslot
      rw [← hslot]
      exact hw r0.calls hdr hrec
  | readCopyTags r0 tagBound _ ih =>
    intro h hslot
    rw [(readCopyTags_frame w r0 tagBound).2.2] at hslot
    exact ih h hslot
  | Close r0 _ ih =>
    intro h hslot
    rw [close_peekHdr] at hslot
    exact ih h hslot

/-- `Next` on the header `h` it takes from the peek slot or reads from the
index: a panic when `h` has no tag, `h` otherwise. -/
theorem next_of_header (w : World) (r : Reader) (h : Header)
    (hsrc : r.peekHdr = some h ∨
      (r.peekHdr = none ∧ (w.irNext r.calls).map indexToContentHeader = .ok h)) :
    (h.Idx.DataOp.Tags = [] → (r.Next w).1 = .error .panic) ∧
      (h.Idx.DataOp.Tags ≠ [] → (r.Next w).1 = .ok h) := by
  unfold Reader.Next
  rcases hsrc with hslot | ⟨hslot, hrec⟩
  · rw [hslot]
    dsimp only
    cases htags : h.Idx.DataOp.Tags with
    | nil => simp
    | cons t ts => simp
  · rw [hslot]
    unfold Reader.next
    cases hir : w.irNext r.calls with
    | error e => rw [hir] at hrec; simp [Except.map] at hrec
    | ok hdr =>
      rw [hir] at hrec
      simp only [Except.map, Except.ok.injEq] at hrec
      subst hrec
      dsimp only
      cases htags : (indexToContentHeader hdr).Idx.DataOp.Tags with
      | nil => simp
      | cons t ts => simp

/-- C15: the slice `Tags[1:]` of `Next` is in bounds exactly when the header
carries at least one tag. When every header the index delivers has a non-empty
tag list, `Next` on a reader reached from `newReader` never panics: it returns
a header, or the error of the index reader. For a header without tags, taken
from the peek slot or read from the index, `Next` panics, and it panics only
then. -/
theorem next_slice_in_bounds (w : World) :
    (WellTagged w → ∀ r, Reachable w r →
        (r.Next w).1 ≠ .error .panic ∧
          ((∃ h, (r.Next w).1 = .ok h) ∨
            ∃ e, r.peekHdr = none ∧ w.irNext r.calls = .error e ∧
              (r.Next w).1 = .error (.error e))) ∧
      (∀ (r : Reader) (h : Header), (r.peekHdr = some h ∨
          (r.peekHdr = none ∧ (w.irNext r.calls).map indexToContentHeader = .ok h)) →
        ((r.Next w).1 = .error .panic ↔ h.Idx.DataOp.Tags = []) ∧
          (h.Idx.DataOp.Tags ≠ [] → (r.Next w).1 = .ok h)) := by
  constructor
  · intro hw r hr
    have hinv := reachable_slot_tagged w hw r hr
    cases hslot : r.peekHdr with
    | some h =>
      have hok := (next_of_header w r h (Or.inl hslot)).2 (hinv h hslot)
      rw [hok]
      exact ⟨by simp, Or.inl ⟨h, rfl⟩⟩
    | none =>
      cases hir : w.irNext r.calls with
      | error e =>
        have : (r.Next w).1 = .error (.error e) := by
          simp [Reader.Next, Reader.next, hslot, hir]
        rw [this]
        exact ⟨by simp, Or.inr ⟨e, rfl, rfl, rfl⟩⟩
      | ok hdr =>
        have hok := (next_of_header w r (indexToContentHeader hdr)
          (Or.inr ⟨hslot, by simp [hir, Except.map]⟩)).2 (hw r.calls hdr hir)
        rw [hok]
        exact ⟨by simp, Or.inl ⟨_, rfl⟩⟩
  · intro r h hsrc
    obtain ⟨h1, h2⟩ := next_of_header w r h hsrc
    refine ⟨⟨?_, h1⟩, h2⟩
    intro hp
    by_contra hne
    rw [h2 hne] at hp
    simp at hp

theorem wellTagged_listWorld (hdrs : List Header) (a b : Bool)
    (h : ∀ hdr ∈ hdrs, hdr.Idx.DataOp.Tags ≠ []) : WellTagged (listWorld hdrs a b) := by
  intro calls hdr hrec
  simp only [listWorld] at hrec
  cases hg : hdrs.get? (calls.count Call.irNext) with
  | none => rw [hg] at hrec; simp at hrec
  | some h0 =>
    rw [hg] at hrec
    simp only [Except.ok.injEq] at hrec
    rw [← hrec]
    exact h h0 (List.get?_mem hg)

/-- C15, witness: over the two tagged files, `Next` after a `Peek` returns a
header; over an index that delivers a header without tags, `Next` panics. -/
theorem next_slice_in_bounds_witness :
    ((Reader.Next (listWorld twoFiles false false)
          (newReader.Peek (listWorld twoFiles false false)).2).1 ≠ .error .panic ∧
        ((∃ h, (Reader.Next (listWorld twoFiles false false)
            (newReader.Peek (listWorld twoFiles false false)).2).1 = .ok h) ∨
          ∃ e, (newReader.Peek (listWorld twoFiles false false)).2.peekHdr = none ∧
            (listWorld twoFiles false false).irNext
              (newReader.Peek (listWorld twoFiles false false)).2.calls = .error e ∧
            (Reader.Next (listWorld twoFiles false false)
              (newReader.Peek (listWorld twoFiles false false)).2).1 = .error (.error e))) ∧
      (((newReader.Next untaggedWorld).1 = .error .panic ↔
          (indexToContentHeader (fileHeader "/e" [])).Idx.DataOp.Tags = []) ∧
        ((indexToContentHeader (fileHeader "/e" [])).Idx.DataOp.Tags ≠ [] →
          (newReader.Next untaggedWorld).1 = .ok (indexToContentHeader (fileHeader "/e" [])))) :=
  ⟨(next_slice_in_bounds (listWorld twoFiles false false)).1
      (wellTagged_listWorld twoFiles false false (by decide))
      (newReader.Peek (listWorld twoFiles false false)).2
      (Reachable.Peek newReader Reachable.new),
    (next_slice_in_bounds untaggedWorld).2 newReader (indexToContentHeader (fileHeader "/e" []))
      (Or.inr ⟨by decide, by decide⟩)⟩

/-! ## Where `Peek`, `Close` and `CompactSpec` depart from the stronger claims -/

/-- C3, counterexample: over an empty index three calls of `Peek` return no
header and call the index reader three times; over an index that delivers a
header without tags, the three calls of `Peek` return that header and call the
index reader once, but the `Next` that follows panics instead of returning
it. -/
theorem peek_without_record_or_tags :
    (∀ k, k < 3 → (Reader.Peek (listWorld [] false false)
        (peekTimes (listWorld [] false false) k newReader)).1 = .error .EOF) ∧
      (peekTimes (listWorld [] false false) 3 newReader).calls =
        [Call.irNext, Call.irNext, Call.irNext] ∧
      (∀ k, k < 3 → (Reader.Peek untaggedWorld (peekTimes untaggedWorld k newReader)).1 =
        .ok (indexToContentHeader (fileHeader "/e" []))) ∧
      (peekTimes untaggedWorld 3 newReader).calls = [Call.irNext] ∧
      (Reader.Next untaggedWorld (peekTimes untaggedWorld 3 newReader)).1 = .error .panic := by
  decide

/-- C5, amended: `Close` closes the chunk reader first. When that fails it
returns that error at once and does not close the index reader; when it
succeeds it closes the index reader and returns what that call returns. So
`Close` returns the first error among the calls it makes, and nil exactly when
both calls are made and succeed. -/
theorem close_returns_first_error (w : World) (r : Reader) :
    (∀ e, w.crClose r.calls = some e →
        r.Close w = (some e, { r with calls := r.calls ++ [Call.crClose] })) ∧
      (w.crClose r.calls = none →
        r.Close w = (w.irClose (r.calls ++ [Call.crClose]),
          { r with calls := r.calls ++ [Call.crClose, Call.irClose] })) ∧
      ((r.Close w).1 = none ↔
        w.crClose r.calls = none ∧ w.irClose (r.calls ++ [Call.crClose]) = none) := by
  unfold Reader.Close
  cases hcr : w.crClose r.calls with
  | some e => simp
  | none => simp

/-- C5, witness: closing the chunk reader fails; closing it succeeds and
closing the index reader fails. -/
theorem close_returns_first_error_witness :
    Reader.Close (listWorld twoFiles true false) orderedReader =
        (some (.other 7), { orderedReader with calls := orderedReader.calls ++ [Call.crClose] }) ∧
      Reader.Close failingIndexCloseWorld orderedReader =
        (failingIndexCloseWorld.irClose (orderedReader.calls ++ [Call.crClose]),
          { orderedReader with
            calls := orderedReader.calls ++ [Call.crClose, Call.irClose] }) ∧
      (Reader.Close failingIndexCloseWorld orderedReader).1 = some (.other 6) :=
  ⟨(close_returns_first_error (listWorld twoFiles true false) orderedReader).1 (.other 7)
      (by decide),
    (close_returns_first_error failingIndexCloseWorld orderedReader).2.1 (by decide),
    by decide⟩

end Fileset
